import Mathlib

/-!
Shallow embedding of the `ratecounter` Go package (files `counter.go` and
`ratecounter.go`) and proofs about the claims of its specification.

Modelling conventions:
* Go's `uint32` is a `Nat` kept below `wordMod = 2^32`; atomic add with
  wraparound becomes addition followed by `% wordMod`, and the cast
  `uint32(val)` of an `int64` becomes `(val % wordMod).toNat`.
* wall-clock time (`UnixMilli`) is passed explicitly: every operation takes
  the current time `now : Nat` (milliseconds) as a parameter.  Go subtracts
  `uint64` timestamps; sequential executions keep `resetTime ≤ now`, and the
  model uses truncated `Nat` subtraction.
* Go computes `timeDiff = float32(now - resetTime)` and
  `partialInterval = float32(interval) / float32(resolution)` and compares
  and subtracts them in `float32`.  The development has two timing layers:
  - the faithful layer (`updatePartialsF32`, `IncrF32`, `RateF32`,
    `runF32`) implements IEEE-754 binary32 arithmetic exactly — `F32`
    values are dyadic rationals `num * 2^exp`, `f32round` is
    round-to-nearest-even at 24 significant bits, `f32div` is the
    correctly rounded quotient, `f32sub` the rounded exact difference, and
    `F32.blt` compares the exact represented values.  (For
    `resolution = 0` Go divides by `float32(0)`, getting `Inf` or `NaN`,
    and the comparison is false; the guard `0 < resolution` in
    `updatePartialsF32` spells that case out.)
  - the exact scaled-integer layer (`updatePartials`, `Incr`, `Rate`,
    `run`) multiplies the comparison through by `resolution` so that every
    quantity is a natural number:
    `timeDiff > partialInterval ↔ (now - resetTime) * resolution > interval`.
  `updatePartials_agree` (and `run_agree`) prove the two layers equal on
  the float32-exact regime — elapsed time, window, and resolution below
  `2^24` with the resolution dividing the window — because there every
  intermediate float32 value is an integer below `2^24` and is represented
  exactly.  Outside that regime they differ (see
  `idleRateBeyondFloatPrecision` and `rateIdempotentFloatBreak`).
* the `sync.Mutex`/`resetting` admission gate only matters under
  concurrency; sequential operations enter and leave the gate within one
  call, so the sequential state omits the flag.  The gate itself is
  modelled separately as a labelled transition system (`GateStep`) for the
  concurrency claim.
-/

/-- Modulus of Go's `uint32` word: 2^32. -/
def wordMod : Nat := 4294967296

/-- Embedding of `type Counter uint32` (counter.go): a 32-bit unsigned word. -/
structure Counter where
  word : Nat
deriving DecidableEq, Repr

/-- Embedding of `NewCounter` (test helper): a zeroed counter. -/
def NewCounter : Counter := ⟨0⟩

/-- Embedding of `Counter.Incr`: `atomic.AddUint32((*uint32)(c), uint32(val))`.
The `int64` delta is truncated to `uint32` and added with wraparound. -/
def Counter.Incr (c : Counter) (val : Int) : Counter :=
  ⟨(c.word + (val % (wordMod : Int)).toNat) % wordMod⟩

/-- Embedding of `Counter.Reset`: `atomic.StoreUint32((*uint32)(c), 0)`. -/
def Counter.Reset (_ : Counter) : Counter := ⟨0⟩

/-- Embedding of `Counter.Value`: `int64(atomic.LoadUint32((*uint32)(c)))`,
the word zero-extended to a signed 64-bit integer. -/
def Counter.Value (c : Counter) : Int := (c.word : Int)

/-- Embedding of `struct RateCounter` (ratecounter.go).  The mutex and the
`resetting` flag are omitted: in the sequential semantics a call sets and
clears the flag before returning (see the concurrency model below). -/
structure RateCounter where
  counter : Counter
  partials : List Counter
  resetTime : Nat
  current : Nat
  interval : Nat
deriving DecidableEq, Repr

/-- Embedding of `NewRateCounter`: twenty zeroed partials, `resetTime`
initialised from the clock (here the explicit parameter `now`), the window
length in milliseconds stored as a `uint32`. -/
def NewRateCounter (intervalMillis : Nat) (now : Nat) : RateCounter :=
  { counter := ⟨0⟩
    partials := List.replicate 20 ⟨0⟩
    resetTime := now
    current := 0
    interval := intervalMillis % wordMod }

/-- Body of one iteration of the rotation loop in `updatePartials`
(ratecounter.go lines 79-89): advance to the next partial circularly,
subtract its value from the running counter, and reset it. -/
def evictStep (resolution : Nat) : Nat × Counter × List Counter → Nat × Counter × List Counter
  | (current, counter, partials) =>
    let next := (current + 1) % resolution
    (next,
     counter.Incr (-1 * (partials.getD next ⟨0⟩).Value),
     partials.set next ⟨0⟩)

/-- Number of iterations the rotation loop performs under the exact
scaled-integer timing (see the header comment; `loopStepsF32` below is the
faithful binary32 count): the loop in `updatePartials` runs while
`timeDiff > partialInterval` and the iteration counter is below
`resolution` (modelled by the fuel), subtracting `partialInterval` from
`timeDiff` each time.  Both time quantities are scaled by `resolution`, so
`timeDiff` starts as `(now - resetTime) * resolution` and
`partialInterval` is `interval`.  The count depends only on the time
quantities, not on the counter state. -/
def loopSteps : Nat → Nat → Nat → Nat
  | 0, _, _ => 0
  | fuel + 1, timeDiff, partialInterval =>
    if timeDiff > partialInterval then
      loopSteps fuel (timeDiff - partialInterval) partialInterval + 1
    else 0

/-- Embedding of the rotation loop of `updatePartials` (lines 75-89):
`for ii := 0; timeDiff > partialInterval && ii < resolution; ii++ { ... }`
with the time quantities scaled by `resolution` (exact scaled-integer
timing layer; `rotateLoopF32` below keeps the binary32 arithmetic).  The
fuel starts at `resolution`; the second component of the result is the
number of iterations executed (Go's final `ii`). -/
def rotateLoop (resolution : Nat) :
    Nat → Nat → Nat → Nat × Counter × List Counter → (Nat × Counter × List Counter) × Nat
  | 0, _, _, st => (st, 0)
  | fuel + 1, timeDiff, partialInterval, st =>
    if timeDiff > partialInterval then
      let out := rotateLoop resolution fuel (timeDiff - partialInterval) partialInterval
        (evictStep resolution st)
      (out.1, out.2 + 1)
    else (st, 0)

/-- Embedding of `updatePartials` (ratecounter.go lines 34-93) under the
exact scaled-integer timing; `updatePartialsF32` below is the faithful
binary32 version, and `updatePartials_agree` proves them equal on the
float32-exact regime.  The unused `val` parameter of the Go function is
dropped; `interval` is read from the receiver as the callers pass
`r.interval`.  The comparison `timeDiff > partialInterval` is scaled by
`resolution` (header comment), so `timeDiff` is
`(now - resetTime) * resolution` and `partialInterval` is `interval`.
When at least one sub-interval has elapsed the loop rotates the ring and
both `current` and `resetTime` are stored back; otherwise the state is
returned untouched. -/
def updatePartials (r : RateCounter) (now : Nat) : RateCounter :=
  let resolution := r.partials.length
  let timeDiff : Nat := (now - r.resetTime) * resolution
  let partialInterval : Nat := r.interval
  if timeDiff > partialInterval then
    let out := rotateLoop resolution resolution timeDiff partialInterval
      (r.current, r.counter, r.partials)
    { counter := out.1.2.1
      partials := out.1.2.2
      resetTime := now
      current := out.1.1
      interval := r.interval }
  else r

/-- Embedding of `WithResolution` (lines 96-105).  The Go function panics
when `resolution < 1`; the model returns `none` in that case.  Otherwise the
partials are replaced by a fresh zeroed ring and `current` is reset. -/
def RateCounter.WithResolution (r : RateCounter) (resolution : Int) : Option RateCounter :=
  if resolution < 1 then none
  else some { r with partials := List.replicate resolution.toNat ⟨0⟩, current := 0 }

/-- Embedding of `RateCounter.Incr` (lines 108-114): add to the running
counter, rotate if stale, then add to the current partial. -/
def RateCounter.Incr (r : RateCounter) (now : Nat) (val : Int) : RateCounter :=
  let r1 : RateCounter := { r with counter := r.counter.Incr val }
  let r2 := updatePartials r1 now
  { r2 with partials := r2.partials.set r2.current ((r2.partials.getD r2.current ⟨0⟩).Incr val) }

/-- Embedding of `RateCounter.Rate` (lines 117-120): rotate if stale, then
read the running counter.  The mutated state is returned alongside the
value. -/
def RateCounter.Rate (r : RateCounter) (now : Nat) : Int × RateCounter :=
  let r1 := updatePartials r now
  (r1.counter.Value, r1)

/-- One sequential operation on a RateCounter. -/
inductive Op where
  | incr (val : Int)
  | rate
deriving DecidableEq, Repr

/-- Sequential small-step semantics: apply one timestamped operation. -/
def RateCounter.step (r : RateCounter) : Nat × Op → RateCounter
  | (now, Op.incr v) => r.Incr now v
  | (now, Op.rate) => (r.Rate now).2

/-- Run a timestamped operation trace from a state. -/
def run (r : RateCounter) (trace : List (Nat × Op)) : RateCounter :=
  trace.foldl RateCounter.step r

/-- Sum of the stored words of the partials (as a natural number). -/
def wsum (ps : List Counter) : Nat := (ps.map Counter.word).sum

/-- Sum of `partials[i].Value()` over all buckets, as the spec writes it. -/
def partialsSum (ps : List Counter) : Int := (ps.map Counter.Value).sum

/-- Deltas of the `Incr` operations of a trace, in order. -/
def traceDeltas (trace : List (Nat × Op)) : List Int :=
  trace.filterMap fun p =>
    match p.2 with
    | Op.incr v => some v
    | Op.rate => none

/-- Single-event invariant for the bounded-staleness analysis: the state
holds exactly the partials `ps1` (one event of weight one in bucket `c`,
all other buckets zero), the window is `W`, `m` rotation steps have
occurred since the event was recorded at time `t`, and `resetTime` is
late enough that at most `m` sub-intervals of the window have been
consumed since the event.  Time comparisons are scaled by the resolution
`ps1.length` (see the header comment): the last conjunct is
`resetTime ≥ t - W/R + m * (W/R)` multiplied through by `R`. -/
def Alive (W c t m : Nat) (ps1 : List Counter) (r : RateCounter) : Prop :=
  r.counter = ⟨1⟩ ∧ r.partials = ps1 ∧ r.interval = W ∧
  r.current = (c + m) % ps1.length ∧ m < ps1.length ∧
  t * ps1.length + m * W ≤ r.resetTime * ps1.length + W

/-- Phase of one caller with respect to the rotation admission gate of
`updatePartials` (ratecounter.go lines 49-69): `outside` before the
`r.Lock()`, `rotating` after winning the gate (the `resetting` flag was
false and the caller set it), `skipped` after losing it (the flag was
already true and the caller returned at once). -/
inductive Phase where
  | outside
  | rotating
  | skipped
deriving DecidableEq, Repr

/-- Shared state of the admission gate for `n` concurrent callers: the
`resetting` flag and each caller's phase.  The mutex makes the
check-and-set of `resetting` one atomic transition. -/
structure GateState (n : Nat) where
  resetting : Bool
  pc : Fin n → Phase

/-- Labelled transitions of the admission gate, caller `i` acting.  The
`enterRotate`/`enterSkip` pair is the mutex-protected test of `resetting`
(lines 49-62): the winner sets the flag and proceeds to the rotation loop,
a loser moves directly to `skipped` (it returns without waiting).  The
winner clears the flag when done (the deferred reset, lines 53-58), and a
caller that skipped may call again later. -/
inductive GateStep (n : Nat) : Fin n → GateState n → GateState n → Prop where
  | enterRotate (i : Fin n) (s : GateState n) :
      s.pc i = Phase.outside → s.resetting = false →
      GateStep n i s ⟨true, Function.update s.pc i Phase.rotating⟩
  | enterSkip (i : Fin n) (s : GateState n) :
      s.pc i = Phase.outside → s.resetting = true →
      GateStep n i s ⟨s.resetting, Function.update s.pc i Phase.skipped⟩
  | finishRotate (i : Fin n) (s : GateState n) :
      s.pc i = Phase.rotating →
      GateStep n i s ⟨false, Function.update s.pc i Phase.outside⟩
  | callAgain (i : Fin n) (s : GateState n) :
      s.pc i = Phase.skipped →
      GateStep n i s ⟨s.resetting, Function.update s.pc i Phase.outside⟩

/-- States of the admission gate reachable from the initial one (flag
clear, every caller outside). -/
inductive GateReach (n : Nat) : GateState n → Prop where
  | start : GateReach n ⟨false, fun _ => Phase.outside⟩
  | next {s s' : GateState n} {i : Fin n} :
      GateReach n s → GateStep n i s s' → GateReach n s'

/-- Inductive invariant of the admission gate: when the `resetting` flag is
clear nobody is inside the rotation loop, and at most one caller is inside
it at any time. -/
def GateInv {n : Nat} (s : GateState n) : Prop :=
  (s.resetting = false → ∀ i, s.pc i ≠ Phase.rotating) ∧
  (∀ i j : Fin n, s.pc i = Phase.rotating → s.pc j = Phase.rotating → i = j)

/-- Concrete two-caller gate run: the initial state. -/
def gateS0 : GateState 2 := ⟨false, fun _ => Phase.outside⟩

/-- Concrete two-caller gate run: caller 0 has won the admission gate. -/
def gateS1 : GateState 2 := ⟨true, Function.update gateS0.pc 0 Phase.rotating⟩

/-- Concrete two-caller gate run: caller 1 then found the flag set and
skipped. -/
def gateS2 : GateState 2 := ⟨gateS1.resetting, Function.update gateS1.pc 1 Phase.skipped⟩

/-- Number of iterations the rotation loop of `updatePartials r now`
performs (zero when the cheap path is taken the loop is not reached). -/
def rotCount (r : RateCounter) (now : Nat) : Nat :=
  loopSteps r.partials.length ((now - r.resetTime) * r.partials.length) r.interval

/-- Structural invariant of sequentially reachable RateCounter states: a
non-empty ring, an in-range current index, a stored counter word below the
word modulus, and the counter congruent to the sum of the partials modulo
2^32. -/
structure RCInv (r : RateCounter) : Prop where
  hres : 0 < r.partials.length
  hcur : r.current < r.partials.length
  hword : r.counter.word < wordMod
  hcongr : ((r.counter.word : Int)) % (wordMod : Int) = ((wsum r.partials : Int)) % (wordMod : Int)

/-! ### Faithful binary32 timing layer

Go computes the rotation timing in IEEE-754 binary32
(`timeDiff := float32(now - resetTime)`,
`partialInterval := float32(interval) / float32(resolution)`, float32
comparison and in-loop subtraction).  The definitions below model binary32
exactly for the values that arise there (nonnegative, zero or in the
normal range): a value is the dyadic rational `num * 2 ^ exp`, and every
operation rounds its exact result to 24 significant bits,
round-to-nearest, ties to even — the rounding the hardware performs.
Overflow, subnormals and negative values never arise (timestamps are
subtracted as unsigned integers before conversion, and the loop subtracts
only when the difference is positive), so they are not modelled.  The
exact-arithmetic `updatePartials` above coincides with this faithful
`updatePartialsF32` whenever the elapsed time and the window are below
2^24 ms and the resolution divides the window (`updatePartials_agree`
below); outside that regime the two can differ, and the float32 layer is
the authority. -/

/-- Bit length of a natural number, with explicit fuel so that it reduces
in the kernel; fuel `n` always suffices because the bit length of `n` is
at most `n`. -/
def bitsAux : Nat → Nat → Nat
  | 0, _ => 0
  | fuel + 1, n => if n = 0 then 0 else bitsAux fuel (n / 2) + 1

/-- Bit length of a natural number: 0 for 0, otherwise one more than the
floor of its base-2 logarithm. -/
def bits (n : Nat) : Nat := bitsAux n n

/-- A binary32 value: the dyadic rational `num * 2 ^ exp` (nonnegative;
zero is `num = 0`).  The representation is not normalised; the rounding
function keeps mantissas at no more than 24 bits plus a possible carry. -/
structure F32 where
  num : Nat
  exp : Int
deriving DecidableEq, Repr

/-- Round `m * 2 ^ e` to 24 significant bits, round-to-nearest, ties to
even: the binary32 rounding of an exact nonnegative value. -/
def f32round (m : Nat) (e : Int) : F32 :=
  if bits m ≤ 24 then ⟨m, e⟩
  else
    let s := bits m - 24
    let q := m / 2 ^ s
    let r := m % 2 ^ s
    let half := 2 ^ (s - 1)
    let q2 := if half < r then q + 1
      else if r < half then q
      else if q % 2 = 1 then q + 1 else q
    ⟨q2, e + s⟩

/-- Conversion of an unsigned integer to binary32 (Go's `float32(x)` on a
`uint64` or `uint32`). -/
def f32ofNat (n : Nat) : F32 := f32round n 0

/-- Binary32 comparison `x < y`: the hardware compares the exact
represented values. -/
def F32.blt (x y : F32) : Bool :=
  if x.exp ≤ y.exp then x.num < y.num * 2 ^ (y.exp - x.exp).toNat
  else x.num * 2 ^ (x.exp - y.exp).toNat < y.num

/-- Binary32 subtraction `x - y`: both operands aligned to the smaller
exponent, exact difference (the loop subtracts only when `y < x`), then
binary32 rounding. -/
def f32sub (x y : F32) : F32 :=
  let emin := min x.exp y.exp
  f32round (x.num * 2 ^ (x.exp - emin).toNat - y.num * 2 ^ (y.exp - emin).toNat) emin

/-- Binary32 division `x / y` for `y ≠ 0`: the exact quotient computed
with `bits y.num + 28` guard bits, the sticky remainder folded into the
low bit, then rounded — the standard correctly-rounded division. -/
def f32div (x y : F32) : F32 :=
  let s := bits y.num + 28
  let q := x.num * 2 ^ s / y.num
  let q2 := if x.num * 2 ^ s % y.num ≠ 0 ∧ q % 2 = 0 then q + 1 else q
  f32round q2 (x.exp - y.exp - s)

/-- The binary32 value `x` denotes exactly the natural number `n`:
nonpositive exponent and the mantissa is `n` shifted left accordingly.
Every value of the float32-exact regime below has this form. -/
def F32.exactNat (x : F32) (n : Nat) : Prop :=
  x.exp ≤ 0 ∧ x.num = n * 2 ^ (-x.exp).toNat

/-- Iteration count of the binary32 rotation loop (same recursion as
`rotateLoopF32`; the count depends only on the time values). -/
def loopStepsF32 : Nat → F32 → F32 → Nat
  | 0, _, _ => 0
  | fuel + 1, timeDiff, partialInterval =>
    if F32.blt partialInterval timeDiff then
      loopStepsF32 fuel (f32sub timeDiff partialInterval) partialInterval + 1
    else 0

/-- Rotation loop of `updatePartials` with the faithful binary32 timing:
identical body (`evictStep`) and iteration cap, but the loop condition
and the `timeDiff -= partialInterval` update are binary32 operations
exactly as in the Go source. -/
def rotateLoopF32 (resolution : Nat) :
    Nat → F32 → F32 → Nat × Counter × List Counter → (Nat × Counter × List Counter) × Nat
  | 0, _, _, st => (st, 0)
  | fuel + 1, timeDiff, partialInterval, st =>
    if F32.blt partialInterval timeDiff then
      let out := rotateLoopF32 resolution fuel (f32sub timeDiff partialInterval)
        partialInterval (evictStep resolution st)
      (out.1, out.2 + 1)
    else (st, 0)

/-- Embedding of `updatePartials` with the faithful binary32 timing of
ratecounter.go lines 34-93.  The `0 < resolution` conjunct spells out
what IEEE arithmetic gives Go for an empty ring: dividing by
`float32(0)` yields `+Inf` or `NaN`, the comparison
`timeDiff > partialInterval` is then false, and no rotation happens. -/
def updatePartialsF32 (r : RateCounter) (now : Nat) : RateCounter :=
  let resolution := r.partials.length
  let timeDiff : F32 := f32ofNat (now - r.resetTime)
  let partialInterval : F32 := f32div (f32ofNat r.interval) (f32ofNat resolution)
  if 0 < resolution ∧ F32.blt partialInterval timeDiff then
    let out := rotateLoopF32 resolution resolution timeDiff partialInterval
      (r.current, r.counter, r.partials)
    { counter := out.1.2.1
      partials := out.1.2.2
      resetTime := now
      current := out.1.1
      interval := r.interval }
  else r

/-- Iteration count of the float32 rotation loop of
`updatePartialsF32 r now`. -/
def rotCountF32 (r : RateCounter) (now : Nat) : Nat :=
  loopStepsF32 r.partials.length (f32ofNat (now - r.resetTime))
    (f32div (f32ofNat r.interval) (f32ofNat r.partials.length))

/-- Embedding of `RateCounter.Incr` with the faithful binary32 timing. -/
def RateCounter.IncrF32 (r : RateCounter) (now : Nat) (val : Int) : RateCounter :=
  let r1 : RateCounter := { r with counter := r.counter.Incr val }
  let r2 := updatePartialsF32 r1 now
  { r2 with partials := r2.partials.set r2.current ((r2.partials.getD r2.current ⟨0⟩).Incr val) }

/-- Embedding of `RateCounter.Rate` with the faithful binary32 timing. -/
def RateCounter.RateF32 (r : RateCounter) (now : Nat) : Int × RateCounter :=
  let r1 := updatePartialsF32 r now
  (r1.counter.Value, r1)

/-- Sequential step with the faithful binary32 timing. -/
def RateCounter.stepF32 (r : RateCounter) : Nat × Op → RateCounter
  | (now, Op.incr v) => r.IncrF32 now v
  | (now, Op.rate) => (r.RateF32 now).2

/-- Run a timestamped operation trace under the faithful binary32
timing. -/
def runF32 (r : RateCounter) (trace : List (Nat × Op)) : RateCounter :=
  trace.foldl RateCounter.stepF32 r

/-! ### Helper lemmas -/

theorem wordMod_pos : 0 < wordMod := by decide

theorem bitsAux_le_iff (fuel : Nat) :
    ∀ (n k : Nat), n ≤ fuel → (bitsAux fuel n ≤ k ↔ n < 2 ^ k) := by
  induction fuel with
  | zero =>
    intro n k hn
    have h0 : n = 0 := by omega
    subst h0
    rw [show bitsAux 0 0 = 0 from rfl]
    have := Nat.pos_pow_of_pos k (by omega : 0 < 2)
    omega
  | succ fuel ih =>
    intro n k hn
    by_cases h0 : n = 0
    · subst h0
      rw [show bitsAux (fuel + 1) 0 = 0 from rfl]
      have := Nat.pos_pow_of_pos k (by omega : 0 < 2)
      omega
    · simp only [bitsAux, if_neg h0]
      cases k with
      | zero => omega
      | succ k2 =>
        have hrec := ih (n / 2) k2 (by omega)
        rw [show (bitsAux fuel (n / 2) + 1 ≤ k2 + 1) ↔ (bitsAux fuel (n / 2) ≤ k2) by omega,
          hrec, Nat.pow_succ]
        omega

theorem bits_le_iff (n k : Nat) : bits n ≤ k ↔ n < 2 ^ k :=
  bitsAux_le_iff n n k (Nat.le_refl n)

theorem lt_two_pow_bits (n : Nat) : n < 2 ^ bits n :=
  (bits_le_iff n (bits n)).mp (Nat.le_refl _)

theorem bits_le_of_le {a b : Nat} (h : a ≤ b) : bits a ≤ bits b :=
  (bits_le_iff a (bits b)).mpr (Nat.lt_of_le_of_lt h (lt_two_pow_bits b))

theorem mul_pow_div_pow (n p s : Nat) (h : s ≤ p) :
    n * 2 ^ p / 2 ^ s = n * 2 ^ (p - s) := by
  obtain ⟨d, rfl⟩ : ∃ d, p = d + s := ⟨p - s, by omega⟩
  rw [Nat.add_sub_cancel, Nat.pow_add, ← Nat.mul_assoc,
    Nat.mul_div_assoc _ (dvd_refl _), Nat.div_self (Nat.pos_pow_of_pos _ (by omega)),
    Nat.mul_one]

theorem f32round_dvd (m : Nat) (e : Int) (h : ¬ bits m ≤ 24)
    (hdvd : 2 ^ (bits m - 24) ∣ m) :
    f32round m e = ⟨m / 2 ^ (bits m - 24), e + ((bits m - 24 : Nat) : Int)⟩ := by
  have hr : m % 2 ^ (bits m - 24) = 0 := Nat.mod_eq_zero_of_dvd hdvd
  rw [f32round, if_neg h]
  simp only [hr]
  rw [if_neg (Nat.not_lt_zero _), if_pos (Nat.pos_pow_of_pos (bits m - 24 - 1) (by omega))]

theorem f32round_exactNat (m : Nat) (e : Int) (n : Nat)
    (he : e ≤ 0) (hm : m = n * 2 ^ (-e).toNat) (hn : bits n ≤ 24) :
    (f32round m e).exactNat n := by
  by_cases hb : bits m ≤ 24
  · rw [f32round, if_pos hb]
    exact ⟨he, hm⟩
  · have hppos : (0 : Nat) < 2 ^ (-e).toNat := Nat.pos_pow_of_pos _ (by omega)
    have hmlt : m < 2 ^ (24 + (-e).toNat) := by
      calc m = n * 2 ^ (-e).toNat := hm
        _ < 2 ^ bits n * 2 ^ (-e).toNat :=
          Nat.mul_lt_mul_of_lt_of_le (lt_two_pow_bits n) (Nat.le_refl _) hppos
        _ ≤ 2 ^ 24 * 2 ^ (-e).toNat :=
          Nat.mul_le_mul_right _ (Nat.pow_le_pow_right (by omega) hn)
        _ = 2 ^ (24 + (-e).toNat) := (Nat.pow_add 2 24 _).symm
    have hbl : bits m ≤ 24 + (-e).toNat := (bits_le_iff m _).mpr hmlt
    have hsp : bits m - 24 ≤ (-e).toNat := by omega
    have hdvd : 2 ^ (bits m - 24) ∣ m := by
      have h2 : 2 ^ (bits m - 24) ∣ n * 2 ^ (-e).toNat :=
        Dvd.dvd.mul_left (pow_dvd_pow 2 hsp) n
      rwa [← hm] at h2
    rw [f32round_dvd m e hb hdvd]
    set sb := bits m - 24 with hsb
    refine ⟨?_, ?_⟩
    · show e + (sb : Int) ≤ 0
      omega
    · show m / 2 ^ sb = n * 2 ^ (-(e + (sb : Int))).toNat
      have h2 : m = n * 2 ^ (-(e + (sb : Int))).toNat * 2 ^ sb := by
        rw [hm, Nat.mul_assoc, ← Nat.pow_add]
        congr 2
        omega
      rw [h2, Nat.mul_div_assoc _ (dvd_refl _),
        Nat.div_self (Nat.pos_pow_of_pos _ (by omega)), Nat.mul_one]

theorem f32ofNat_exact (n : Nat) (hn : n < 2 ^ 24) : f32ofNat n = ⟨n, 0⟩ := by
  rw [f32ofNat, f32round, if_pos ((bits_le_iff n 24).mpr hn)]

theorem exactNat_ofNat (n : Nat) (hn : n < 2 ^ 24) : (f32ofNat n).exactNat n := by
  rw [f32ofNat_exact n hn]
  exact ⟨Int.le_refl 0, by simp⟩

theorem blt_exactNat (x y : F32) (a b : Nat)
    (hx : x.exactNat a) (hy : y.exactNat b) :
    (F32.blt x y = true) ↔ a < b := by
  obtain ⟨hxe, hxn⟩ := hx
  obtain ⟨hye, hyn⟩ := hy
  rw [F32.blt]
  by_cases h : x.exp ≤ y.exp
  · rw [if_pos h]
    simp only [decide_eq_true_eq]
    rw [hxn, hyn, Nat.mul_assoc, ← Nat.pow_add]
    rw [show (-y.exp).toNat + (y.exp - x.exp).toNat = (-x.exp).toNat by omega]
    exact Nat.mul_lt_mul_right (Nat.pos_pow_of_pos _ (by omega))
  · rw [if_neg h]
    simp only [decide_eq_true_eq]
    rw [hxn, hyn, Nat.mul_assoc, ← Nat.pow_add]
    rw [show (-x.exp).toNat + (x.exp - y.exp).toNat = (-y.exp).toNat by omega]
    exact Nat.mul_lt_mul_right (Nat.pos_pow_of_pos _ (by omega))

theorem f32sub_exactNat (x y : F32) (a b : Nat)
    (hx : x.exactNat a) (hy : y.exactNat b) (hba : b ≤ a) (ha : bits a ≤ 24) :
    (f32sub x y).exactNat (a - b) := by
  obtain ⟨hxe, hxn⟩ := hx
  obtain ⟨hye, hyn⟩ := hy
  have hmin : min x.exp y.exp ≤ 0 := le_trans (min_le_left _ _) hxe
  have hA : x.num * 2 ^ (x.exp - min x.exp y.exp).toNat
      = a * 2 ^ (-min x.exp y.exp).toNat := by
    rw [hxn, Nat.mul_assoc, ← Nat.pow_add]
    congr 2
    omega
  have hB : y.num * 2 ^ (y.exp - min x.exp y.exp).toNat
      = b * 2 ^ (-min x.exp y.exp).toNat := by
    rw [hyn, Nat.mul_assoc, ← Nat.pow_add]
    congr 2
    omega
  rw [f32sub, hA, hB, ← Nat.sub_mul]
  exact f32round_exactNat _ _ _ hmin rfl (le_trans (bits_le_of_le (by omega)) ha)

theorem f32div_exactNat (a b c : Nat) (hb0 : 0 < b) (hc : a = b * c) (hcb : bits c ≤ 24) :
    (f32div ⟨a, 0⟩ ⟨b, 0⟩).exactNat c := by
  have hq : a * 2 ^ (bits b + 28) / b = c * 2 ^ (bits b + 28) := by
    rw [hc, Nat.mul_assoc, Nat.mul_div_cancel_left _ hb0]
  have hr : a * 2 ^ (bits b + 28) % b = 0 := by
    rw [hc, Nat.mul_assoc, Nat.mul_mod_right]
  rw [f32div]
  simp only [hr, hq]
  rw [if_neg (by simp)]
  apply f32round_exactNat _ _ _ (by omega) ?_ hcb
  rw [show (-(0 - 0 - ((bits b + 28 : Nat) : Int))).toNat = bits b + 28 by omega]


theorem counterIncr_word_lt (c : Counter) (v : Int) : (c.Incr v).word < wordMod :=
  Nat.mod_lt _ wordMod_pos

theorem counterIncr_word_mod (c : Counter) (v : Int) :
    ((c.Incr v).word : Int) % (wordMod : Int) = ((c.word : Int) + v) % (wordMod : Int) := by
  show (((c.word + (v % (wordMod : Int)).toNat) % wordMod : Nat) : Int) % (wordMod : Int) = _
  simp only [wordMod]
  push_cast
  omega

theorem wsum_nil : wsum [] = 0 := rfl

theorem wsum_cons (c : Counter) (l : List Counter) : wsum (c :: l) = c.word + wsum l := rfl

theorem partialsSum_eq_wsum (l : List Counter) : partialsSum l = (wsum l : Int) := by
  induction l with
  | nil => rfl
  | cons a t ih =>
    simp [partialsSum, Counter.Value] at ih ⊢
    simp [wsum_cons, ih]

theorem getD_set (l : List Counter) (i j : Nat) (c : Counter) :
    (l.set i c).getD j ⟨0⟩ = if i = j ∧ i < l.length then c else l.getD j ⟨0⟩ := by
  induction l generalizing i j with
  | nil => simp
  | cons a t ih =>
    cases i with
    | zero =>
      cases j with
      | zero => simp
      | succ j' => simp
    | succ i' =>
      cases j with
      | zero => simp
      | succ j' => simpa using ih i' j'

theorem wsum_set (l : List Counter) (i : Nat) (c : Counter) (h : i < l.length) :
    (wsum (l.set i c) : Int) =
      (wsum l : Int) - ((l.getD i ⟨0⟩).word : Int) + (c.word : Int) := by
  induction l generalizing i with
  | nil => simp at h
  | cons a t ih =>
    cases i with
    | zero =>
      simp [wsum_cons]
      ring
    | succ i' =>
      have h' : i' < t.length := by simpa using h
      simp only [List.set, wsum_cons, List.getD_cons_succ]
      rw [Nat.cast_add, Nat.cast_add, ih i' h']
      ring

theorem getD_word_le_wsum (l : List Counter) (i : Nat) : (l.getD i ⟨0⟩).word ≤ wsum l := by
  induction l generalizing i with
  | nil => simp [List.getD]
  | cons a t ih =>
    cases i with
    | zero => simp [wsum_cons]
    | succ i' =>
      simp only [List.getD_cons_succ, wsum_cons]
      exact (ih i').trans (Nat.le_add_left _ _)

theorem wsum_eq_zero (l : List Counter) (h : ∀ p ∈ l, p = (⟨0⟩ : Counter)) : wsum l = 0 := by
  induction l with
  | nil => rfl
  | cons a t ih =>
    rw [wsum_cons, h a (by simp), ih fun p hp => h p (by simp [hp])]

theorem wsum_replicate_zero (n : Nat) : wsum (List.replicate n ⟨0⟩) = 0 :=
  wsum_eq_zero _ fun _p hp => (List.eq_of_mem_replicate hp)

theorem evictStep_def (R cur : Nat) (w : Counter) (ps : List Counter) :
    evictStep R (cur, w, ps) =
      ((cur + 1) % R,
       w.Incr (-1 * (ps.getD ((cur + 1) % R) ⟨0⟩).Value),
       ps.set ((cur + 1) % R) ⟨0⟩) := rfl

theorem iter_length (R k : Nat) :
    ∀ (cur : Nat) (w : Counter) (ps : List Counter),
      ((evictStep R)^[k] (cur, w, ps)).2.2.length = ps.length := by
  induction k with
  | zero => intro cur w ps; rfl
  | succ k ih =>
    intro cur w ps
    rw [Function.iterate_succ_apply, evictStep_def, ih]
    simp

theorem iter_current (R : Nat) (hR : 0 < R) (k : Nat) :
    ∀ (cur : Nat) (w : Counter) (ps : List Counter), cur < R →
      ((evictStep R)^[k] (cur, w, ps)).1 = (cur + k) % R := by
  induction k with
  | zero => intro cur w ps hcur; simpa using (Nat.mod_eq_of_lt hcur).symm
  | succ k ih =>
    intro cur w ps hcur
    rw [Function.iterate_succ_apply, evictStep_def,
      ih ((cur + 1) % R) _ _ (Nat.mod_lt _ hR), Nat.mod_add_mod]
    congr 1
    omega

theorem iter_counter_lt (R k : Nat) :
    ∀ (cur : Nat) (w : Counter) (ps : List Counter), w.word < wordMod →
      ((evictStep R)^[k] (cur, w, ps)).2.1.word < wordMod := by
  induction k with
  | zero => intro _ _ _ h; exact h
  | succ k ih =>
    intro cur w ps _hw
    rw [Function.iterate_succ_apply, evictStep_def]
    exact ih _ _ _ (counterIncr_word_lt _ _)

theorem iter_congr (R : Nat) (hR : 0 < R) (k : Nat) :
    ∀ (cur : Nat) (w : Counter) (ps : List Counter), ps.length = R →
      ((((evictStep R)^[k] (cur, w, ps)).2.1.word : Int) -
          (wsum ((evictStep R)^[k] (cur, w, ps)).2.2 : Int)) % (wordMod : Int) =
        ((w.word : Int) - (wsum ps : Int)) % (wordMod : Int) := by
  induction k with
  | zero => intro _ _ _ _; rfl
  | succ k ih =>
    intro cur w ps hlen
    rw [Function.iterate_succ_apply, evictStep_def]
    have hnext : (cur + 1) % R < ps.length := by rw [hlen]; exact Nat.mod_lt _ hR
    have hlen' : (ps.set ((cur + 1) % R) ⟨0⟩).length = R := by simpa using hlen
    rw [ih _ _ _ hlen']
    have h1 := counterIncr_word_mod w (-1 * (ps.getD ((cur + 1) % R) ⟨0⟩).Value)
    have h2 := wsum_set ps ((cur + 1) % R) ⟨0⟩ hnext
    simp only [Counter.Value, wordMod] at h1 h2 ⊢
    omega

theorem iter_zero_mono (R k : Nat) :
    ∀ (cur : Nat) (w : Counter) (ps : List Counter) (i : Nat),
      ps.getD i ⟨0⟩ = ⟨0⟩ →
      ((evictStep R)^[k] (cur, w, ps)).2.2.getD i ⟨0⟩ = ⟨0⟩ := by
  induction k with
  | zero => intro _ _ _ _ h; exact h
  | succ k ih =>
    intro cur w ps i h
    rw [Function.iterate_succ_apply, evictStep_def]
    refine ih _ _ _ _ ?_
    rw [getD_set]
    split
    · rfl
    · exact h

theorem iter_zero_at (R : Nat) (hR : 0 < R) (k : Nat) :
    ∀ (cur : Nat) (w : Counter) (ps : List Counter), cur < R → ps.length = R →
      ∀ j, 1 ≤ j → j ≤ k →
        ((evictStep R)^[k] (cur, w, ps)).2.2.getD ((cur + j) % R) ⟨0⟩ = ⟨0⟩ := by
  induction k with
  | zero => intro _ _ _ _ _ j h1 h2; omega
  | succ k ih =>
    intro cur w ps hcur hlen j h1 h2
    rw [Function.iterate_succ_apply, evictStep_def]
    rcases Nat.eq_or_lt_of_le h1 with h | h
    · apply iter_zero_mono
      rw [← h, getD_set]
      rw [if_pos ⟨rfl, by rw [hlen]; exact Nat.mod_lt _ hR⟩]
    · have hrec := ih ((cur + 1) % R) (w.Incr (-1 * (ps.getD ((cur + 1) % R) ⟨0⟩).Value))
        (ps.set ((cur + 1) % R) ⟨0⟩) (Nat.mod_lt _ hR) (by simpa using hlen)
        (j - 1) (by omega) (by omega)
      have hidx : ((cur + 1) % R + (j - 1)) % R = (cur + j) % R := by
        rw [Nat.mod_add_mod]
        congr 1
        omega
      rw [hidx] at hrec
      exact hrec

theorem exists_rot_index (R cur i : Nat) (hR : 0 < R) (hi : i < R) :
    ∃ j, 1 ≤ j ∧ j ≤ R ∧ (cur + j) % R = i := by
  have hmod := Nat.div_add_mod (cur + 1) R
  have htR : (cur + 1) % R < R := Nat.mod_lt _ hR
  refine ⟨(i + R - (cur + 1) % R) % R + 1, by omega, ?_, ?_⟩
  · have := Nat.mod_lt (i + R - (cur + 1) % R) hR
    omega
  · have h1 : cur + ((i + R - (cur + 1) % R) % R + 1)
        = cur + 1 + (i + R - (cur + 1) % R) % R := by omega
    rw [h1, Nat.add_mod_mod]
    have h2 : cur + 1 + (i + R - (cur + 1) % R)
        = i + R + R * ((cur + 1) / R) := by omega
    rw [h2, Nat.add_mul_mod_self_left, Nat.add_mod_right, Nat.mod_eq_of_lt hi]

theorem iter_all_zero (R cur : Nat) (w : Counter) (ps : List Counter)
    (hR : 0 < R) (hcur : cur < R) (hlen : ps.length = R) :
    ∀ p ∈ ((evictStep R)^[R] (cur, w, ps)).2.2, p = (⟨0⟩ : Counter) := by
  intro p hp
  obtain ⟨idx, hidx, hget⟩ := List.mem_iff_getElem.mp hp
  have hlen2 : ((evictStep R)^[R] (cur, w, ps)).2.2.length = ps.length := iter_length R R cur w ps
  have hidxR : idx < R := by omega
  obtain ⟨j, hj1, hjR, hjidx⟩ := exists_rot_index R cur idx hR hidxR
  have hz := iter_zero_at R hR R cur w ps hcur hlen j hj1 hjR
  rw [hjidx] at hz
  rw [List.getD_eq_getElem _ _ hidx] at hz
  rw [← hget, hz]

theorem loopSteps_le (f : Nat) : ∀ (td pI : Nat), loopSteps f td pI ≤ f := by
  induction f with
  | zero => intro _ _; exact Nat.le_refl 0
  | succ f ih =>
    intro td pI
    simp only [loopSteps]
    split
    · exact Nat.succ_le_succ (ih _ _)
    · exact Nat.zero_le _

theorem loopSteps_ge (f : Nat) :
    ∀ (j td pI : Nat), j ≤ f → j * pI < td → j ≤ loopSteps f td pI := by
  induction f with
  | zero => intro j _ _ hj _; omega
  | succ f ih =>
    intro j td pI hj hlt
    cases j with
    | zero => exact Nat.zero_le _
    | succ j' =>
      have hsm : (j' + 1) * pI = j' * pI + pI := Nat.succ_mul _ _
      have hpi : pI < td := by omega
      simp only [loopSteps, if_pos hpi]
      have hrec : j' ≤ loopSteps f (td - pI) pI := ih j' (td - pI) pI (by omega) (by omega)
      omega

theorem loopSteps_gt (f : Nat) :
    ∀ (j td pI : Nat), 1 ≤ j → j ≤ loopSteps f td pI → j * pI < td := by
  induction f with
  | zero =>
    intro j td pI h1 h2
    simp only [loopSteps] at h2
    omega
  | succ f ih =>
    intro j td pI h1 h2
    simp only [loopSteps] at h2
    by_cases hpi : td > pI
    · rw [if_pos hpi] at h2
      cases j with
      | zero => omega
      | succ j' =>
        rcases Nat.eq_zero_or_pos j' with h0 | hpos
        · subst h0
          simpa using hpi
        · have hrec := ih j' (td - pI) pI hpos (by omega)
          have hsm : (j' + 1) * pI = j' * pI + pI := Nat.succ_mul _ _
          omega
    · rw [if_neg hpi] at h2
      omega

theorem rotateLoop_eq (R f : Nat) :
    ∀ (td pI : Nat) (st : Nat × Counter × List Counter),
      rotateLoop R f td pI st = ((evictStep R)^[loopSteps f td pI] st, loopSteps f td pI) := by
  induction f with
  | zero => intro td pI st; rfl
  | succ f ih =>
    intro td pI st
    simp only [rotateLoop, loopSteps]
    split
    · rw [ih]
      simp [Function.iterate_succ_apply]
    · rfl

theorem updatePartials_not_rot (r : RateCounter) (now : Nat)
    (h : (now - r.resetTime) * r.partials.length ≤ r.interval) :
    updatePartials r now = r := by
  unfold updatePartials
  rw [if_neg (by omega)]

theorem updatePartials_rot (r : RateCounter) (now : Nat)
    (h : r.interval < (now - r.resetTime) * r.partials.length) :
    updatePartials r now =
      { counter :=
          ((evictStep r.partials.length)^[rotCount r now] (r.current, r.counter, r.partials)).2.1
        partials :=
          ((evictStep r.partials.length)^[rotCount r now] (r.current, r.counter, r.partials)).2.2
        resetTime := now
        current :=
          ((evictStep r.partials.length)^[rotCount r now] (r.current, r.counter, r.partials)).1
        interval := r.interval } := by
  unfold updatePartials
  rw [if_pos (by omega), rotateLoop_eq]
  rfl

theorem updatePartials_facts (r : RateCounter) (now : Nat)
    (hres : 0 < r.partials.length) (hcur : r.current < r.partials.length)
    (hword : r.counter.word < wordMod) :
    (updatePartials r now).partials.length = r.partials.length ∧
    (updatePartials r now).current < r.partials.length ∧
    (updatePartials r now).counter.word < wordMod ∧
    ((((updatePartials r now).counter.word : Int) -
        (wsum (updatePartials r now).partials : Int)) % (wordMod : Int)
      = ((r.counter.word : Int) - (wsum r.partials : Int)) % (wordMod : Int)) ∧
    (updatePartials r now).interval = r.interval := by
  by_cases hrot : r.interval < (now - r.resetTime) * r.partials.length
  · rw [updatePartials_rot r now hrot]
    refine ⟨?_, ?_, ?_, ?_, rfl⟩
    · exact iter_length _ _ _ _ _
    · dsimp only
      rw [iter_current r.partials.length hres _ _ _ _ hcur]
      exact Nat.mod_lt _ hres
    · exact iter_counter_lt _ _ _ _ _ hword
    · exact iter_congr r.partials.length hres _ _ _ _ rfl
  · rw [updatePartials_not_rot r now (by omega)]
    exact ⟨rfl, hcur, hword, rfl, rfl⟩

theorem inv_updatePartials (r : RateCounter) (now : Nat) (h : RCInv r) :
    RCInv (updatePartials r now) := by
  obtain ⟨L, C, W, D, _⟩ := updatePartials_facts r now h.hres h.hcur h.hword
  refine ⟨by omega, by omega, W, ?_⟩
  have hc := h.hcongr
  simp only [wordMod] at D hc ⊢
  omega

theorem inv_incr (r : RateCounter) (now : Nat) (v : Int) (h : RCInv r) :
    RCInv (r.Incr now v) := by
  obtain ⟨L, C, W, D, _⟩ := updatePartials_facts { r with counter := r.counter.Incr v } now
    h.hres h.hcur (counterIncr_word_lt _ _)
  dsimp only at L C D
  have hmod1 := counterIncr_word_mod r.counter v
  have hcongr := h.hcongr
  simp only [RateCounter.Incr]
  set r2 := updatePartials { r with counter := r.counter.Incr v } now with hr2
  have hcur2 : r2.current < r2.partials.length := by omega
  have hset := wsum_set r2.partials r2.current
    ((r2.partials.getD r2.current ⟨0⟩).Incr v) hcur2
  have hmod2 := counterIncr_word_mod (r2.partials.getD r2.current ⟨0⟩) v
  refine ⟨?_, ?_, ?_, ?_⟩
  · dsimp only
    rw [List.length_set]
    omega
  · dsimp only
    rw [List.length_set]
    omega
  · exact W
  · dsimp only
    rw [hset]
    simp only [wordMod] at D hmod1 hmod2 hcongr ⊢
    omega

theorem inv_step (r : RateCounter) (p : Nat × Op) (h : RCInv r) : RCInv (r.step p) := by
  rcases p with ⟨now, op⟩
  cases op with
  | incr v => exact inv_incr r now v h
  | rate => exact inv_updatePartials r now h

theorem inv_run (trace : List (Nat × Op)) :
    ∀ (r : RateCounter), RCInv r → RCInv (run r trace) := by
  induction trace with
  | nil => intro r h; exact h
  | cons p tr ih =>
    intro r h
    exact ih _ (inv_step r p h)

theorem inv_start (w t0 : Nat) (n : Int) (start : RateCounter)
    (hstart : start = NewRateCounter w t0 ∨
      (NewRateCounter w t0).WithResolution n = some start) :
    RCInv start := by
  rcases hstart with h | h
  · subst h
    refine ⟨?_, ?_, ?_, ?_⟩ <;>
      simp only [NewRateCounter, wsum_replicate_zero, List.length_replicate] <;> decide
  · unfold RateCounter.WithResolution at h
    split at h
    · simp at h
    · rename_i hge
      have hn : 0 < n.toNat := by omega
      rw [Option.some_inj] at h
      subst h
      refine ⟨?_, ?_, ?_, ?_⟩ <;>
        simp only [NewRateCounter, wsum_replicate_zero, List.length_replicate] <;>
        first
          | exact hn
          | decide

theorem rate_zero_of_idle (r : RateCounter) (now : Nat) (h : RCInv r)
    (hidle : r.resetTime + r.interval < now) :
    (r.Rate now).1 = 0 := by
  have hres := h.hres
  have hmono : now - r.resetTime ≤ (now - r.resetTime) * r.partials.length :=
    Nat.le_mul_of_pos_right _ hres
  have hrot : r.interval < (now - r.resetTime) * r.partials.length := by omega
  have h1 : r.interval + 1 ≤ now - r.resetTime := by omega
  have h2 : (r.interval + 1) * r.partials.length
      ≤ (now - r.resetTime) * r.partials.length := Nat.mul_le_mul_right _ h1
  have h3 : (r.interval + 1) * r.partials.length
      = r.partials.length * r.interval + r.partials.length := by ring
  have hgeK : r.partials.length ≤ rotCount r now :=
    loopSteps_ge _ _ _ _ (Nat.le_refl _) (by omega)
  have hleK : rotCount r now ≤ r.partials.length := loopSteps_le _ _ _
  have hK : rotCount r now = r.partials.length := Nat.le_antisymm hleK hgeK
  show (updatePartials r now).counter.Value = 0
  rw [updatePartials_rot r now hrot]
  dsimp only [Counter.Value]
  rw [hK]
  have hzero := wsum_eq_zero _ (iter_all_zero r.partials.length r.current r.counter r.partials
    hres h.hcur rfl)
  have hcongr := iter_congr r.partials.length hres r.partials.length
    r.current r.counter r.partials rfl
  have hwlt := iter_counter_lt r.partials.length r.partials.length
    r.current r.counter r.partials h.hword
  have hc0 := h.hcongr
  simp only [wordMod] at *
  omega

theorem foldl_incr_word (ds : List Int) :
    ∀ (c : Counter), c.word < wordMod →
      ((ds.foldl Counter.Incr c).word : Int) = ((c.word : Int) + ds.sum) % (wordMod : Int) := by
  induction ds with
  | nil =>
    intro c hc
    simp only [List.foldl_nil, List.sum_nil, wordMod] at *
    omega
  | cons d tl ih =>
    intro c hc
    rw [List.foldl_cons, ih _ (counterIncr_word_lt _ _), List.sum_cons]
    have hm := counterIncr_word_mod c d
    simp only [wordMod] at *
    omega

/-! ### Agreement of the binary32 semantics with the exact scaled model -/

theorem loopSteps_scale (R : Nat) (hR : 0 < R) (f : Nat) :
    ∀ (td pI : Nat), loopSteps f (td * R) (pI * R) = loopSteps f td pI := by
  induction f with
  | zero => intro _ _; rfl
  | succ f ih =>
    intro td pI
    simp only [loopSteps]
    have hiff : pI * R < td * R ↔ pI < td := Nat.mul_lt_mul_right hR
    by_cases h : pI < td
    · rw [if_pos (hiff.mpr h), if_pos h, ← Nat.sub_mul, ih]
    · rw [if_neg (fun hc => h (hiff.mp hc)), if_neg h]

theorem rotateLoopF32_agree (R : Nat) (f : Nat) :
    ∀ (tdF pIF : F32) (td pI : Nat) (st : Nat × Counter × List Counter),
      tdF.exactNat td → pIF.exactNat pI → td < 2 ^ 24 →
      rotateLoopF32 R f tdF pIF st
        = ((evictStep R)^[loopSteps f td pI] st, loopSteps f td pI) := by
  induction f with
  | zero => intro _ _ _ _ _ _ _ _; rfl
  | succ f ih =>
    intro tdF pIF td pI st htd hpI hlt
    have hblt := blt_exactNat pIF tdF pI td hpI htd
    simp only [rotateLoopF32, loopSteps]
    by_cases h : pI < td
    · rw [if_pos (hblt.mpr h), if_pos h]
      have hsub := f32sub_exactNat tdF pIF td pI htd hpI (by omega)
        ((bits_le_iff td 24).mpr hlt)
      rw [ih (f32sub tdF pIF) pIF (td - pI) pI (evictStep R st) hsub hpI (by omega)]
      simp [Function.iterate_succ_apply]
    · rw [if_neg (fun hc => h (hblt.mp hc)), if_neg h]
      rfl

theorem updatePartials_agree (r : RateCounter) (now : Nat)
    (hW : r.interval < 2 ^ 24) (hR : r.partials.length < 2 ^ 24)
    (hdvd : r.partials.length ∣ r.interval)
    (hgap : now - r.resetTime < 2 ^ 24) :
    updatePartialsF32 r now = updatePartials r now := by
  rcases Nat.eq_zero_or_pos r.partials.length with h0 | hres
  · rw [updatePartials_not_rot r now (by rw [h0, Nat.mul_zero]; exact Nat.zero_le _)]
    unfold updatePartialsF32
    rw [if_neg (fun hcon => absurd hcon.1 (by omega))]
  · obtain ⟨c, hc⟩ := hdvd
    have hcle : c ≤ r.interval := by
      rw [hc]
      exact Nat.le_mul_of_pos_left c hres
    have hpIex : (f32div (f32ofNat r.interval) (f32ofNat r.partials.length)).exactNat c := by
      rw [f32ofNat_exact _ hW, f32ofNat_exact _ hR]
      exact f32div_exactNat r.interval r.partials.length c hres hc
        ((bits_le_iff c 24).mpr (by omega))
    have htdex : (f32ofNat (now - r.resetTime)).exactNat (now - r.resetTime) :=
      exactNat_ofNat _ hgap
    have hblt := blt_exactNat (f32div (f32ofNat r.interval) (f32ofNat r.partials.length))
      (f32ofNat (now - r.resetTime)) c (now - r.resetTime) hpIex htdex
    have hcond : (r.interval < (now - r.resetTime) * r.partials.length)
        ↔ c < now - r.resetTime := by
      rw [hc, Nat.mul_comm r.partials.length c]
      exact Nat.mul_lt_mul_right hres
    by_cases hrot : r.interval < (now - r.resetTime) * r.partials.length
    · rw [updatePartials_rot r now hrot]
      unfold updatePartialsF32
      rw [if_pos ⟨hres, hblt.mpr (hcond.mp hrot)⟩]
      rw [rotateLoopF32_agree r.partials.length r.partials.length
        (f32ofNat (now - r.resetTime))
        (f32div (f32ofNat r.interval) (f32ofNat r.partials.length))
        (now - r.resetTime) c (r.current, r.counter, r.partials) htdex hpIex hgap]
      rw [show rotCount r now = loopSteps r.partials.length (now - r.resetTime) c from by
        rw [rotCount, hc, Nat.mul_comm r.partials.length c]
        exact loopSteps_scale r.partials.length hres r.partials.length _ _]
    · rw [updatePartials_not_rot r now (by omega)]
      unfold updatePartialsF32
      rw [if_neg (fun hcon => absurd (hcond.mpr (hblt.mp hcon.2)) hrot)]

theorem incrF32_agree (r : RateCounter) (now : Nat) (v : Int)
    (hW : r.interval < 2 ^ 24) (hR : r.partials.length < 2 ^ 24)
    (hdvd : r.partials.length ∣ r.interval) (hnow : now < 2 ^ 24) :
    r.IncrF32 now v = r.Incr now v := by
  simp only [RateCounter.IncrF32, RateCounter.Incr]
  rw [updatePartials_agree { r with counter := r.counter.Incr v } now hW hR hdvd
    (by dsimp only; omega)]

theorem rateF32_agree (r : RateCounter) (now : Nat)
    (hW : r.interval < 2 ^ 24) (hR : r.partials.length < 2 ^ 24)
    (hdvd : r.partials.length ∣ r.interval) (hnow : now < 2 ^ 24) :
    r.RateF32 now = r.Rate now := by
  simp only [RateCounter.RateF32, RateCounter.Rate]
  rw [updatePartials_agree r now hW hR hdvd (by omega)]

theorem stepF32_agree (r : RateCounter) (p : Nat × Op)
    (hW : r.interval < 2 ^ 24) (hR : r.partials.length < 2 ^ 24)
    (hdvd : r.partials.length ∣ r.interval) (hp : p.1 < 2 ^ 24) :
    r.stepF32 p = r.step p := by
  rcases p with ⟨now, op⟩
  cases op with
  | incr v => exact incrF32_agree r now v hW hR hdvd hp
  | rate =>
    show (r.RateF32 now).2 = (r.Rate now).2
    rw [rateF32_agree r now hW hR hdvd hp]

theorem updatePartials_frame (r : RateCounter) (now : Nat) :
    (updatePartials r now).partials.length = r.partials.length ∧
    (updatePartials r now).interval = r.interval := by
  by_cases hrot : r.interval < (now - r.resetTime) * r.partials.length
  · rw [updatePartials_rot r now hrot]
    exact ⟨iter_length _ _ _ _ _, rfl⟩
  · rw [updatePartials_not_rot r now (by omega)]
    exact ⟨rfl, rfl⟩

theorem step_frame (r : RateCounter) (p : Nat × Op) :
    (r.step p).partials.length = r.partials.length ∧ (r.step p).interval = r.interval := by
  rcases p with ⟨now, op⟩
  cases op with
  | incr v =>
    obtain ⟨hL, hI⟩ := updatePartials_frame { r with counter := r.counter.Incr v } now
    dsimp only at hL hI
    show ((updatePartials { r with counter := r.counter.Incr v } now).partials.set _ _).length
        = r.partials.length ∧ _
    rw [List.length_set]
    exact ⟨hL, hI⟩
  | rate => exact updatePartials_frame r now

theorem run_frame (trace : List (Nat × Op)) :
    ∀ (r : RateCounter), (run r trace).partials.length = r.partials.length ∧
      (run r trace).interval = r.interval := by
  induction trace with
  | nil => intro r; exact ⟨rfl, rfl⟩
  | cons p tr ih =>
    intro r
    obtain ⟨hL, hI⟩ := step_frame r p
    obtain ⟨hL2, hI2⟩ := ih (r.step p)
    exact ⟨hL2.trans hL, hI2.trans hI⟩

theorem run_agree (trace : List (Nat × Op)) :
    ∀ (r : RateCounter), r.interval < 2 ^ 24 → r.partials.length < 2 ^ 24 →
      r.partials.length ∣ r.interval → (∀ p ∈ trace, p.1 < 2 ^ 24) →
      runF32 r trace = run r trace := by
  induction trace with
  | nil => intro r _ _ _ _; rfl
  | cons p tr ih =>
    intro r hW hR hdvd htimes
    have hs := stepF32_agree r p hW hR hdvd (htimes p (List.mem_cons_self p tr))
    obtain ⟨hL, hI⟩ := step_frame r p
    show runF32 (r.stepF32 p) tr = run (r.step p) tr
    rw [hs]
    exact ih (r.step p) (hI ▸ hW) (hL ▸ hR) (hI ▸ hL ▸ hdvd)
      (fun q hq => htimes q (List.mem_cons_of_mem p hq))

theorem rotateLoopF32_eq (R f : Nat) :
    ∀ (td pI : F32) (st : Nat × Counter × List Counter),
      rotateLoopF32 R f td pI st
        = ((evictStep R)^[loopStepsF32 f td pI] st, loopStepsF32 f td pI) := by
  induction f with
  | zero => intro _ _ _; rfl
  | succ f ih =>
    intro td pI st
    simp only [rotateLoopF32, loopStepsF32]
    split
    · rw [ih]
      simp [Function.iterate_succ_apply]
    · rfl

theorem updatePartialsF32_not_rot (r : RateCounter) (now : Nat)
    (h : ¬(0 < r.partials.length ∧
      F32.blt (f32div (f32ofNat r.interval) (f32ofNat r.partials.length))
        (f32ofNat (now - r.resetTime)) = true)) :
    updatePartialsF32 r now = r := by
  unfold updatePartialsF32
  rw [if_neg h]

theorem updatePartialsF32_rot (r : RateCounter) (now : Nat)
    (h : 0 < r.partials.length ∧
      F32.blt (f32div (f32ofNat r.interval) (f32ofNat r.partials.length))
        (f32ofNat (now - r.resetTime)) = true) :
    updatePartialsF32 r now =
      { counter := ((evictStep r.partials.length)^[rotCountF32 r now]
          (r.current, r.counter, r.partials)).2.1
        partials := ((evictStep r.partials.length)^[rotCountF32 r now]
          (r.current, r.counter, r.partials)).2.2
        resetTime := now
        current := ((evictStep r.partials.length)^[rotCountF32 r now]
          (r.current, r.counter, r.partials)).1
        interval := r.interval } := by
  unfold updatePartialsF32
  rw [if_pos h, rotateLoopF32_eq]
  rfl

theorem updatePartialsF32_facts (r : RateCounter) (now : Nat)
    (hres : 0 < r.partials.length) (hcur : r.current < r.partials.length)
    (hword : r.counter.word < wordMod) :
    (updatePartialsF32 r now).partials.length = r.partials.length ∧
    (updatePartialsF32 r now).current < r.partials.length ∧
    (updatePartialsF32 r now).counter.word < wordMod ∧
    ((((updatePartialsF32 r now).counter.word : Int) -
        (wsum (updatePartialsF32 r now).partials : Int)) % (wordMod : Int)
      = ((r.counter.word : Int) - (wsum r.partials : Int)) % (wordMod : Int)) ∧
    (updatePartialsF32 r now).interval = r.interval := by
  by_cases hrot : 0 < r.partials.length ∧
      F32.blt (f32div (f32ofNat r.interval) (f32ofNat r.partials.length))
        (f32ofNat (now - r.resetTime)) = true
  · rw [updatePartialsF32_rot r now hrot]
    refine ⟨?_, ?_, ?_, ?_, rfl⟩
    · exact iter_length _ _ _ _ _
    · dsimp only
      rw [iter_current r.partials.length hres _ _ _ _ hcur]
      exact Nat.mod_lt _ hres
    · exact iter_counter_lt _ _ _ _ _ hword
    · exact iter_congr r.partials.length hres _ _ _ _ rfl
  · rw [updatePartialsF32_not_rot r now hrot]
    exact ⟨rfl, hcur, hword, rfl, rfl⟩

theorem inv_updatePartialsF32 (r : RateCounter) (now : Nat) (h : RCInv r) :
    RCInv (updatePartialsF32 r now) := by
  obtain ⟨L, C, W, D, _⟩ := updatePartialsF32_facts r now h.hres h.hcur h.hword
  refine ⟨by omega, by omega, W, ?_⟩
  have hc := h.hcongr
  simp only [wordMod] at D hc ⊢
  omega

theorem inv_incrF32 (r : RateCounter) (now : Nat) (v : Int) (h : RCInv r) :
    RCInv (r.IncrF32 now v) := by
  obtain ⟨L, C, W, D, _⟩ := updatePartialsF32_facts { r with counter := r.counter.Incr v } now
    h.hres h.hcur (counterIncr_word_lt _ _)
  dsimp only at L C D
  have hmod1 := counterIncr_word_mod r.counter v
  have hcongr := h.hcongr
  simp only [RateCounter.IncrF32]
  set r2 := updatePartialsF32 { r with counter := r.counter.Incr v } now with hr2
  have hcur2 : r2.current < r2.partials.length := by omega
  have hset := wsum_set r2.partials r2.current
    ((r2.partials.getD r2.current ⟨0⟩).Incr v) hcur2
  have hmod2 := counterIncr_word_mod (r2.partials.getD r2.current ⟨0⟩) v
  refine ⟨?_, ?_, ?_, ?_⟩
  · dsimp only
    rw [List.length_set]
    omega
  · dsimp only
    rw [List.length_set]
    omega
  · exact W
  · dsimp only
    rw [hset]
    simp only [wordMod] at D hmod1 hmod2 hcongr ⊢
    omega

theorem inv_stepF32 (r : RateCounter) (p : Nat × Op) (h : RCInv r) :
    RCInv (r.stepF32 p) := by
  rcases p with ⟨now, op⟩
  cases op with
  | incr v => exact inv_incrF32 r now v h
  | rate => exact inv_updatePartialsF32 r now h

theorem inv_runF32 (trace : List (Nat × Op)) :
    ∀ (r : RateCounter), RCInv r → RCInv (runF32 r trace) := by
  induction trace with
  | nil => intro r h; exact h
  | cons p tr ih =>
    intro r h
    exact ih _ (inv_stepF32 r p h)

/-! ### Claim theorems -/

/-- C2 (confirmed): for a fresh RateCounter with window 1000ms and
resolution 10 (sub-interval 100ms), executed sequentially with `Incr(1)` at
t=0 and `Incr(1)` at t=500ms, a `Rate()` call at t=600ms returns 2 and a
subsequent `Rate()` call at t=1600ms returns 0. -/
theorem concreteTraceRate :
    (((NewRateCounter 1000 0).WithResolution 10).map fun rc0 =>
      let s1 := rc0.Incr 0 1
      let s2 := s1.Incr 500 1
      let q1 := s2.Rate 600
      let q2 := q1.2.Rate 1600
      (q1.1, q2.1)) = some (2, 0) := by decide

/-- Exact-arithmetic layer for C3: under the scaled-integer idealization of
the timing comparison, a `Rate()` call strictly later than
`resetTime + interval` rotates every bucket at least once and returns 0.
The binary32 claim theorem `idleRateZeroF32` transfers this through
`updatePartials_agree` on the float32-exact regime. -/
theorem idleRateZero (w t0 : Nat) (n : Int) (start : RateCounter)
    (hstart : start = NewRateCounter w t0 ∨
      (NewRateCounter w t0).WithResolution n = some start)
    (trace : List (Nat × Op)) (now : Nat)
    (hidle : (run start trace).resetTime + (run start trace).interval < now) :
    ((run start trace).Rate now).1 = 0 :=
  rate_zero_of_idle _ _ (inv_run trace start (inv_start w t0 n start hstart)) hidle

/-- Exact-arithmetic layer example: a fresh counter with window 1000ms, `Incr(1)` at t=0
and `Incr(3)` at t=250 (which rotates, setting `resetTime` to 250), then an
idle stretch until a `Rate()` at t=1300 > 250 + 1000, which returns 0. -/
theorem idleRateZeroApplied :
    ((run (NewRateCounter 1000 0) [(0, Op.incr 1), (250, Op.incr 3)]).Rate 1300).1 = 0 :=
  idleRateZero 1000 0 1 _ (Or.inl rfl) _ 1300 (by decide)

/-- C3 counterexample: window `2^25` ms (about 9.3 hours), default
resolution 20, a single `Incr(1)` at t=0, then idle until t = 2^25 + 1 —
strictly more than the window after the last operation.  Go computes
`timeDiff = float32(2^25 + 1) = 2^25 = 33554432.0` (the odd integer is not
representable in 24 bits) and `partialInterval = float32(2^25)/float32(20)
= 1677721.625`, so after 19 loop iterations `timeDiff` has been reduced to
`1677720.875 < partialInterval` and the loop stops one iteration short:
the event's bucket is never evicted and `Rate()` returns 1, not 0. -/
theorem idleRateBeyondFloatPrecision :
    ((NewRateCounter 33554432 0).IncrF32 0 1).resetTime
        + ((NewRateCounter 33554432 0).IncrF32 0 1).interval < 33554433 ∧
    (((NewRateCounter 33554432 0).IncrF32 0 1).RateF32 33554433).1 = 1 ∧
    (1 : Int) ≠ 0 := by decide

/-- C3 (amended): for a RateCounter used sequentially (`WithResolution`,
if used, applied before any operation) under the faithful binary32 timing,
a `Rate()` call strictly later than `resetTime + interval` returns 0
provided the timing stays in the float32-exact regime: the time since the
last rotation is below `2^24` ms (about 4.6 hours), the resolution is
below `2^24` and divides the window.  There the float32 comparison and
subtraction are exact, the rotation loop evicts every bucket at least
once, and the congruence invariant drives the stored total to zero.
Beyond that regime float32 rounding can leave a bucket unevicted (see the
counterexample). -/
theorem idleRateZeroF32 (w t0 : Nat) (n : Int) (start : RateCounter)
    (hstart : start = NewRateCounter w t0 ∨
      (NewRateCounter w t0).WithResolution n = some start)
    (trace : List (Nat × Op)) (now : Nat)
    (hidle : (runF32 start trace).resetTime + (runF32 start trace).interval < now)
    (hgap : now - (runF32 start trace).resetTime < 2 ^ 24)
    (hRlt : (runF32 start trace).partials.length < 2 ^ 24)
    (hdvd : (runF32 start trace).partials.length ∣ (runF32 start trace).interval) :
    ((runF32 start trace).RateF32 now).1 = 0 := by
  have hinv : RCInv (runF32 start trace) :=
    inv_runF32 trace start (inv_start w t0 n start hstart)
  have hW : (runF32 start trace).interval < 2 ^ 24 := by omega
  show (updatePartialsF32 (runF32 start trace) now).counter.Value = 0
  rw [updatePartials_agree _ now hW hRlt hdvd hgap]
  exact rate_zero_of_idle _ now hinv hidle

/-- Witness for C3 (amended): a fresh counter with window 1000ms,
`Incr(1)` at t=0 and `Incr(3)` at t=250 (which rotates, setting
`resetTime` to 250), then an idle stretch until a `Rate()` at
t=1300 > 250 + 1000, which returns 0 under the binary32 semantics. -/
theorem idleRateZeroF32Applied :
    ((runF32 (NewRateCounter 1000 0)
        [(0, Op.incr 1), (250, Op.incr 3)]).RateF32 1300).1 = 0 :=
  idleRateZeroF32 1000 0 1 _ (Or.inl rfl) _ 1300 (by decide) (by decide) (by decide)
    (by decide)

/-- C4 counterexample: starting fresh with resolution 2 and window 1000ms,
`Incr(2^31)` at t=0 and `Incr(2^31)` at t=600 land in different buckets
(the second call rotates).  The stored total wraps around 2^32 to 0 while
the int64 sum of the bucket values is 2^32, so the exact invariant
`total.Value() = Σ partials[i].Value()` is not preserved by the second
`Incr` (it held before that call). -/
theorem sumInvariantOverflowBreak :
    ((((NewRateCounter 1000 0).WithResolution 2).map fun rc0 =>
      let s := (rc0.Incr 0 2147483648).Incr 600 2147483648
      (s.counter.Value, partialsSum s.partials)) = some (0, 4294967296)) ∧
    (0 : Int) ≠ 4294967296 := by decide

/-- C4 (amended): starting from a fresh RateCounter (with `WithResolution`,
if used, applied before any operation), after every sequence of sequential
`Incr` and `Rate` steps the running total is congruent to the sum of the
partials modulo 2^32.  The exact int64 equality claimed fails under 32-bit
wraparound (see the counterexample); the congruence is what every `Incr`
and `Rate` call preserves. -/
theorem sumInvariantModulo (w t0 : Nat) (n : Int) (start : RateCounter)
    (hstart : start = NewRateCounter w t0 ∨
      (NewRateCounter w t0).WithResolution n = some start)
    (trace : List (Nat × Op)) :
    ((run start trace).counter.Value) % (wordMod : Int)
      = (partialsSum (run start trace).partials) % (wordMod : Int) := by
  have h := inv_run trace start (inv_start w t0 n start hstart)
  rw [partialsSum_eq_wsum]
  exact h.hcongr

/-- Witness for C4 (amended): the congruence invariant evaluated on a
concrete trace with an increment and a rotating `Rate` call. -/
theorem sumInvariantModuloApplied :
    ((run (NewRateCounter 1000 0) [(0, Op.incr 7), (800, Op.rate)]).counter.Value)
        % (wordMod : Int)
      = (partialsSum (run (NewRateCounter 1000 0)
          [(0, Op.incr 7), (800, Op.rate)]).partials) % (wordMod : Int) :=
  sumInvariantModulo 1000 0 1 _ (Or.inl rfl) _

/-- C5 (confirmed): folding any finite sequence of int64 deltas through
`Counter.Incr` from a fresh counter yields `Value()` equal to the sum of
the deltas reduced modulo 2^32 to its non-negative residue, and any
permutation of the deltas yields the same value. -/
theorem counterAccumulatesModWord (ds ds' : List Int) (hperm : ds.Perm ds') :
    (ds.foldl Counter.Incr NewCounter).Value = ds.sum % (wordMod : Int) ∧
    (ds'.foldl Counter.Incr NewCounter).Value = (ds.foldl Counter.Incr NewCounter).Value := by
  have h1 := foldl_incr_word ds NewCounter (by decide)
  have h2 := foldl_incr_word ds' NewCounter (by decide)
  have hsum := hperm.sum_eq
  simp only [Counter.Value, NewCounter] at *
  constructor
  · rw [h1]
    norm_num
  · rw [h1, h2, hsum]

/-- Witness for C5: deltas `[2, -7]` sum to -5, so the fresh counter reads
back the wrapped residue 2^32 - 5; the swapped order `[-7, 2]` agrees. -/
theorem counterAccumulatesModWordApplied :
    (([2, -7] : List Int).foldl Counter.Incr NewCounter).Value
        = ([2, -7] : List Int).sum % (wordMod : Int) ∧
    (([-7, 2] : List Int).foldl Counter.Incr NewCounter).Value
        = (([2, -7] : List Int).foldl Counter.Incr NewCounter).Value :=
  counterAccumulatesModWord [2, -7] [-7, 2] (by decide)

/-- Exact-arithmetic layer for C6: under the scaled-integer idealization
of the timing comparison, when at most one sub-interval has elapsed the
rotation step returns immediately without mutating anything.  The binary32
claim theorem `rateIdempotentWithinSubIntervalF32` transfers this through
`updatePartials_agree` on the float32-exact regime. -/
theorem rateIdempotentWithinSubInterval (r : RateCounter) (now : Nat)
    (h : (now - r.resetTime) * r.partials.length ≤ r.interval) :
    updatePartials r now = r ∧ (r.Rate now).1 = r.counter.Value ∧ (r.Rate now).2 = r := by
  have h0 := updatePartials_not_rot r now h
  refine ⟨h0, ?_, ?_⟩
  · show (updatePartials r now).counter.Value = _
    rw [h0]
  · show updatePartials r now = r
    exact h0

/-- Exact-arithmetic layer example: a fresh counter with window 1000ms and resolution 20
queried at t=10 (only 10ms, a fifth of a 50ms sub-interval, elapsed). -/
theorem rateIdempotentApplied :
    updatePartials (NewRateCounter 1000 0) 10 = NewRateCounter 1000 0 ∧
    ((NewRateCounter 1000 0).Rate 10).1 = (NewRateCounter 1000 0).counter.Value ∧
    ((NewRateCounter 1000 0).Rate 10).2 = NewRateCounter 1000 0 :=
  rateIdempotentWithinSubInterval _ _ (by decide)

/-- C6 counterexample: window `2^31 + 128` ms, default resolution 20, a
query at t = 107374188.  Exactly `107374188 * 20 = 2147483760 ≤ 2147483776`
holds, so at most one exact sub-interval has elapsed and the claim says the
state is untouched.  But Go compares `float32(107374188) = 107374192` (the
integer needs 27 bits) against `float32(2^31 + 128)/float32(20) =
107374184`, finds it larger, and rotates: `resetTime` and `current` change,
so `Rate()` is not idempotent under the claim's own sub-interval
hypothesis. -/
theorem rateIdempotentFloatBreak :
    (107374188 - (NewRateCounter 2147483776 0).resetTime)
        * (NewRateCounter 2147483776 0).partials.length
        ≤ (NewRateCounter 2147483776 0).interval ∧
    updatePartialsF32 (NewRateCounter 2147483776 0) 107374188
      ≠ NewRateCounter 2147483776 0 := by decide

/-- C6 (amended): under the faithful binary32 timing, when at most one
sub-interval has elapsed since the last rotation — in scaled form
`(now - resetTime) * resolution ≤ interval` — and the timing stays in the
float32-exact regime (window below `2^24` ms, resolution below `2^24` and
dividing the window), the rotation step returns immediately without
mutating anything, so `Rate()` returns the stored total and leaves the
state unchanged; repeated calls under the same condition keep returning
the same value.  Outside that regime float32 rounding can fire a spurious
rotation (see the counterexample). -/
theorem rateIdempotentWithinSubIntervalF32 (r : RateCounter) (now : Nat)
    (h : (now - r.resetTime) * r.partials.length ≤ r.interval)
    (hW : r.interval < 2 ^ 24) (hR : r.partials.length < 2 ^ 24)
    (hdvd : r.partials.length ∣ r.interval) :
    updatePartialsF32 r now = r ∧ (r.RateF32 now).1 = r.counter.Value ∧
      (r.RateF32 now).2 = r := by
  rcases Nat.eq_zero_or_pos r.partials.length with h0 | hres
  · have h0id : updatePartialsF32 r now = r :=
      updatePartialsF32_not_rot r now (fun hcon => absurd hcon.1 (by omega))
    refine ⟨h0id, ?_, ?_⟩
    · show (updatePartialsF32 r now).counter.Value = _
      rw [h0id]
    · show updatePartialsF32 r now = r
      exact h0id
  · have hgap : now - r.resetTime < 2 ^ 24 := by
      have := Nat.le_mul_of_pos_right (now - r.resetTime) hres
      omega
    have hagree := updatePartials_agree r now hW hR hdvd hgap
    have hid := updatePartials_not_rot r now h
    refine ⟨by rw [hagree, hid], ?_, ?_⟩
    · show (updatePartialsF32 r now).counter.Value = _
      rw [hagree, hid]
    · show updatePartialsF32 r now = r
      rw [hagree, hid]

/-- Witness for C6 (amended): a fresh counter with window 1000ms and
resolution 20 queried at t=10 (only 10ms, a fifth of a 50ms sub-interval,
elapsed) under the binary32 semantics. -/
theorem rateIdempotentF32Applied :
    updatePartialsF32 (NewRateCounter 1000 0) 10 = NewRateCounter 1000 0 ∧
    ((NewRateCounter 1000 0).RateF32 10).1 = (NewRateCounter 1000 0).counter.Value ∧
    ((NewRateCounter 1000 0).RateF32 10).2 = NewRateCounter 1000 0 :=
  rateIdempotentWithinSubIntervalF32 _ _ (by decide) (by decide) (by decide) (by decide)

/-- C7 (confirmed): `WithResolution n` fails fatally (modelled by `none`)
exactly when `n < 1`, before touching any bucket, and for `n ≥ 1` it
replaces the ring by `n` fresh zeroed buckets and resets `current` to 0,
leaving every other field unchanged. -/
theorem withResolutionSpec (r : RateCounter) (n : Int) :
    (r.WithResolution n = none ↔ n < 1) ∧
    (1 ≤ n → r.WithResolution n =
      some { r with partials := List.replicate n.toNat ⟨0⟩, current := 0 }) := by
  constructor
  · unfold RateCounter.WithResolution
    split
    · rename_i hlt
      simpa using hlt
    · rename_i hge
      simp only [reduceCtorEq, false_iff]
      omega
  · intro hge
    unfold RateCounter.WithResolution
    rw [if_neg (by omega)]

/-- Witness for C7: `WithResolution 3` succeeds and installs three zeroed
buckets with `current = 0`. -/
theorem withResolutionSpecApplied :
    (NewRateCounter 5 0).WithResolution 3 =
      some { NewRateCounter 5 0 with
        partials := List.replicate (3 : Int).toNat ⟨0⟩, current := 0 } :=
  (withResolutionSpec _ _).2 (by decide)

/-- C8 (confirmed): however large the elapsed time, the rotation loop of
`updatePartials` executes at most `resolution` (the ring length)
iterations; `Incr` and `Rate` are this loop plus straight-line code, so
every call terminates (in the model all functions are structurally
total). -/
theorem rotationLoopBounded (r : RateCounter) (now : Nat) :
    (rotateLoop r.partials.length r.partials.length
      ((now - r.resetTime) * r.partials.length) r.interval
      (r.current, r.counter, r.partials)).2 ≤ r.partials.length := by
  rw [rotateLoop_eq]
  exact loopSteps_le _ _ _

theorem update_rotating {n : Nat} (pc : Fin n → Phase) (i : Fin n) (v : Phase)
    (hv : v ≠ Phase.rotating) (j : Fin n)
    (h : Function.update pc i v j = Phase.rotating) : pc j = Phase.rotating ∧ j ≠ i := by
  by_cases hji : j = i
  · subst hji
    rw [Function.update_same] at h
    exact absurd h hv
  · rw [Function.update_noteq hji] at h
    exact ⟨h, hji⟩

theorem gateInv_start (n : Nat) : GateInv (⟨false, fun _ => Phase.outside⟩ : GateState n) := by
  constructor
  · intro _ i
    simp
  · intro i j hi _
    simp at hi

theorem gateInv_step {n : Nat} {i : Fin n} {s s' : GateState n}
    (h : GateInv s) (hstep : GateStep n i s s') : GateInv s' := by
  obtain ⟨h1, h2⟩ := h
  cases hstep with
  | enterRotate hout hflag =>
    constructor
    · intro hfalse _
      simp at hfalse
    · intro a b ha hb
      dsimp only at ha hb
      by_cases hai : a = i
      · by_cases hbi : b = i
        · rw [hai, hbi]
        · rw [Function.update_noteq hbi] at hb
          exact absurd hb (h1 hflag b)
      · rw [Function.update_noteq hai] at ha
        exact absurd ha (h1 hflag a)
  | enterSkip hout hflag =>
    constructor
    · intro hfalse j
      dsimp only at hfalse
      rw [hflag] at hfalse
      simp at hfalse
    · intro a b ha hb
      dsimp only at ha hb
      obtain ⟨ha', _⟩ := update_rotating s.pc i Phase.skipped (by simp) a ha
      obtain ⟨hb', _⟩ := update_rotating s.pc i Phase.skipped (by simp) b hb
      exact h2 a b ha' hb'
  | finishRotate hrot =>
    constructor
    · intro _ j hj
      dsimp only at hj
      obtain ⟨hj', hji⟩ := update_rotating s.pc i Phase.outside (by simp) j hj
      exact hji (h2 j i hj' hrot)
    · intro a b ha hb
      dsimp only at ha hb
      obtain ⟨ha', _⟩ := update_rotating s.pc i Phase.outside (by simp) a ha
      obtain ⟨hb', _⟩ := update_rotating s.pc i Phase.outside (by simp) b hb
      exact h2 a b ha' hb'
  | callAgain hsk =>
    constructor
    · intro hfalse j hj
      dsimp only at hfalse hj
      obtain ⟨hj', _⟩ := update_rotating s.pc i Phase.outside (by simp) j hj
      exact absurd hj' (h1 hfalse j)
    · intro a b ha hb
      dsimp only at ha hb
      obtain ⟨ha', _⟩ := update_rotating s.pc i Phase.outside (by simp) a ha
      obtain ⟨hb', _⟩ := update_rotating s.pc i Phase.outside (by simp) b hb
      exact h2 a b ha' hb'

theorem gateInv_reach {n : Nat} {s : GateState n} (h : GateReach n s) : GateInv s := by
  induction h with
  | start => exact gateInv_start n
  | next _ hstep ih => exact gateInv_step ih hstep

/-- C9 (confirmed): in the admission-gate transition system modelling
lines 49-69 of ratecounter.go (the mutex makes the check-and-set of
`resetting` atomic), every reachable state has at most one caller inside
the rotation loop; and a caller that finds the flag set moves to `skipped`
in one step — it returns immediately, changing nothing else — rather than
waiting. -/
theorem rotationGateExclusive {n : Nat} {s : GateState n} (hreach : GateReach n s) :
    (∀ i j : Fin n, s.pc i = Phase.rotating → s.pc j = Phase.rotating → i = j) ∧
    (∀ (i : Fin n) (s' : GateState n), s.resetting = true → s.pc i = Phase.outside →
      GateStep n i s s' →
      s'.pc i = Phase.skipped ∧ s'.resetting = true ∧
        ∀ j : Fin n, j ≠ i → s'.pc j = s.pc j) := by
  refine ⟨(gateInv_reach hreach).2, ?_⟩
  intro i s' hflag hout hstep
  cases hstep with
  | enterRotate ho hf =>
    rw [hflag] at hf
    simp at hf
  | enterSkip ho hf =>
    refine ⟨?_, ?_, ?_⟩
    · exact Function.update_same _ _ _
    · exact hflag
    · intro j hji
      exact Function.update_noteq hji _ _
  | finishRotate hrot =>
    rw [hout] at hrot
    simp at hrot
  | callAgain hsk =>
    rw [hout] at hsk
    simp at hsk

/-- Witness for C9: with two callers, caller 0 wins the gate from the
initial state; caller 1 then steps while the flag is set, lands in
`skipped`, and caller 0's phase is untouched. -/
theorem rotationGateExclusiveApplied :
    gateS2.pc 1 = Phase.skipped ∧ gateS2.resetting = true ∧ gateS2.pc 0 = gateS1.pc 0 := by
  have h := (rotationGateExclusive (GateReach.next GateReach.start
      (GateStep.enterRotate 0 gateS0 rfl rfl))).2 1 gateS2 rfl (by decide)
    (GateStep.enterSkip 1 gateS1 (by decide) rfl)
  exact ⟨h.1, h.2.1, h.2.2 0 (by decide)⟩

theorem zero_counter_word : (⟨0⟩ : Counter).word = 0 := rfl

theorem counterIncr_word_sub (w : Counter) (p : Nat)
    (hp : p ≤ w.word) (hw : w.word < wordMod) :
    (w.Incr (-1 * (p : Int))).word = w.word - p := by
  show (w.word + ((-1 * (p : Int)) % (wordMod : Int)).toNat) % wordMod = w.word - p
  simp only [wordMod] at *
  omega

theorem counterIncr_word_add (w : Counter) (v : Int)
    (hv : 0 ≤ v) (hb : (w.word : Int) + v < (wordMod : Int)) :
    (w.Incr v).word = w.word + v.toNat := by
  show (w.word + (v % (wordMod : Int)).toNat) % wordMod = w.word + v.toNat
  simp only [wordMod] at *
  omega

theorem iter_exact (R : Nat) (hR : 0 < R) (k : Nat) :
    ∀ (cur : Nat) (w : Counter) (ps : List Counter) (T0 : Nat),
      ps.length = R → w.word = T0 + wsum ps → w.word < wordMod →
      ((evictStep R)^[k] (cur, w, ps)).2.1.word
          = T0 + wsum ((evictStep R)^[k] (cur, w, ps)).2.2 ∧
        wsum ((evictStep R)^[k] (cur, w, ps)).2.2 ≤ wsum ps := by
  induction k with
  | zero => intro cur w ps T0 _ hex _; exact ⟨hex, Nat.le_refl _⟩
  | succ k ih =>
    intro cur w ps T0 hlen hex hw
    rw [Function.iterate_succ_apply, evictStep_def]
    have hnext : (cur + 1) % R < ps.length := by rw [hlen]; exact Nat.mod_lt _ hR
    have hple := getD_word_le_wsum ps ((cur + 1) % R)
    have hsub : (w.Incr (-1 * (ps.getD ((cur + 1) % R) ⟨0⟩).Value)).word
        = w.word - (ps.getD ((cur + 1) % R) ⟨0⟩).word := by
      have h := counterIncr_word_sub w (ps.getD ((cur + 1) % R) ⟨0⟩).word (by omega) hw
      simpa [Counter.Value] using h
    have hset := wsum_set ps ((cur + 1) % R) ⟨0⟩ hnext
    rw [zero_counter_word] at hset
    push_cast at hset
    have hwsum' : wsum (ps.set ((cur + 1) % R) ⟨0⟩)
        = wsum ps - (ps.getD ((cur + 1) % R) ⟨0⟩).word := by omega
    have hlen' : (ps.set ((cur + 1) % R) ⟨0⟩).length = R := by
      rw [List.length_set, hlen]
    obtain ⟨hA, hB⟩ := ih ((cur + 1) % R)
      (w.Incr (-1 * (ps.getD ((cur + 1) % R) ⟨0⟩).Value))
      (ps.set ((cur + 1) % R) ⟨0⟩) T0 hlen' (by omega) (by omega)
    exact ⟨hA, by omega⟩

theorem updatePartials_exact (r : RateCounter) (now : Nat) (T0 : Nat)
    (hres : 0 < r.partials.length) (hcur : r.current < r.partials.length)
    (hexact : r.counter.word = T0 + wsum r.partials) (hlt : r.counter.word < wordMod) :
    (updatePartials r now).counter.word = T0 + wsum (updatePartials r now).partials ∧
    wsum (updatePartials r now).partials ≤ wsum r.partials ∧
    (updatePartials r now).counter.word < wordMod ∧
    (updatePartials r now).partials.length = r.partials.length ∧
    (updatePartials r now).current < (updatePartials r now).partials.length ∧
    (updatePartials r now).interval = r.interval := by
  by_cases hrot : r.interval < (now - r.resetTime) * r.partials.length
  · rw [updatePartials_rot r now hrot]
    obtain ⟨hA, hB⟩ := iter_exact r.partials.length hres (rotCount r now)
      r.current r.counter r.partials T0 rfl hexact hlt
    refine ⟨hA, hB, ?_, ?_, ?_, rfl⟩
    · exact iter_counter_lt _ _ _ _ _ hlt
    · exact iter_length _ _ _ _ _
    · dsimp only
      rw [iter_length, iter_current _ hres _ _ _ _ hcur]
      exact Nat.mod_lt _ (by omega)
  · rw [updatePartials_not_rot r now (by omega)]
    exact ⟨hexact, Nat.le_refl _, hlt, rfl, hcur, rfl⟩

theorem incr_exact (r : RateCounter) (now : Nat) (v : Int) (T0 : Nat)
    (hres : 0 < r.partials.length) (hcur : r.current < r.partials.length)
    (hexact : r.counter.word = T0 + wsum r.partials) (hlt : r.counter.word < wordMod)
    (hv : 0 ≤ v) (hb : (r.counter.word : Int) + v < (wordMod : Int)) :
    (r.Incr now v).counter.word = T0 + wsum (r.Incr now v).partials ∧
    (r.Incr now v).counter.word ≤ r.counter.word + v.toNat ∧
    (r.Incr now v).partials.length = r.partials.length ∧
    (r.Incr now v).current < (r.Incr now v).partials.length ∧
    (r.Incr now v).counter.word < wordMod ∧
    (r.Incr now v).interval = r.interval := by
  have hadd := counterIncr_word_add r.counter v hv (by simp only [wordMod] at *; omega)
  obtain ⟨uA, uB, uC, uD, uE, uF⟩ := updatePartials_exact
    { r with counter := r.counter.Incr v } now (T0 + v.toNat)
    hres hcur (by dsimp only; omega) (by dsimp only; exact counterIncr_word_lt _ _)
  dsimp only at uA uB uC uD uE uF
  simp only [RateCounter.Incr]
  set r2 := updatePartials { r with counter := r.counter.Incr v } now with hr2
  have hbw : (r2.partials.getD r2.current ⟨0⟩).word ≤ wsum r2.partials :=
    getD_word_le_wsum _ _
  have hbadd : ((r2.partials.getD r2.current ⟨0⟩).Incr v).word
      = (r2.partials.getD r2.current ⟨0⟩).word + v.toNat := by
    apply counterIncr_word_add _ _ hv
    simp only [wordMod] at *
    omega
  have hset := wsum_set r2.partials r2.current
    ((r2.partials.getD r2.current ⟨0⟩).Incr v) uE
  refine ⟨?_, ?_, ?_, ?_, ?_, ?_⟩
  · dsimp only
    have : (wsum (r2.partials.set r2.current
        ((r2.partials.getD r2.current ⟨0⟩).Incr v)) : Int)
        = (wsum r2.partials : Int) + v.toNat := by
      rw [hset, hbadd]
      push_cast
      ring
    omega
  · dsimp only
    omega
  · dsimp only
    rw [List.length_set]
    exact uD
  · dsimp only
    rw [List.length_set]
    omega
  · exact uC
  · exact uF

theorem traceDeltas_cons_rate (now : Nat) (tr : List (Nat × Op)) :
    traceDeltas ((now, Op.rate) :: tr) = traceDeltas tr := rfl

theorem traceDeltas_cons_incr (now : Nat) (v : Int) (tr : List (Nat × Op)) :
    traceDeltas ((now, Op.incr v) :: tr) = v :: traceDeltas tr := rfl

theorem run_exact (T0 : Nat) (trace : List (Nat × Op)) :
    ∀ (r : RateCounter),
      0 < r.partials.length → r.current < r.partials.length →
      r.counter.word = T0 + wsum r.partials → r.counter.word < wordMod →
      (∀ d ∈ traceDeltas trace, 0 ≤ d) →
      ((r.counter.word : Int) + (traceDeltas trace).sum < (wordMod : Int)) →
      (run r trace).counter.word = T0 + wsum (run r trace).partials ∧
        0 < (run r trace).partials.length ∧
        (run r trace).current < (run r trace).partials.length ∧
        (run r trace).counter.word < wordMod := by
  induction trace with
  | nil => intro r h1 h2 h3 h4 _ _; exact ⟨h3, h1, h2, h4⟩
  | cons p tr ih =>
    intro r h1 h2 h3 h4 hpos hbound
    rcases p with ⟨now, op⟩
    cases op with
    | rate =>
      rw [traceDeltas_cons_rate] at hpos hbound
      obtain ⟨uA, uB, uC, uD, uE, _⟩ := updatePartials_exact r now T0 h1 h2 h3 h4
      show _ ∧ _ ∧ _ ∧ _
      have hrun : run r ((now, Op.rate) :: tr) = run (updatePartials r now) tr := rfl
      rw [hrun]
      apply ih _ (by omega) uE uA uC hpos
      simp only [wordMod] at *
      omega
    | incr v =>
      rw [traceDeltas_cons_incr] at hpos hbound
      rw [List.sum_cons] at hbound
      have hv : 0 ≤ v := hpos v (by simp)
      have hrest : ∀ d ∈ traceDeltas tr, 0 ≤ d := fun d hd => hpos d (by simp [hd])
      have hrestsum : 0 ≤ (traceDeltas tr).sum := List.sum_nonneg hrest
      obtain ⟨uA, uB, uC, uD, uE, _⟩ := incr_exact r now v T0 h1 h2 h3 h4 hv
        (by simp only [wordMod] at *; omega)
      have hrun : run r ((now, Op.incr v) :: tr) = run (r.Incr now v) tr := rfl
      rw [hrun]
      apply ih _ (by omega) uD uA uE hrest
      simp only [wordMod] at *
      omega

/-- C10 counterexample: `Incr(5)` at t=0 leaves total 5; `WithResolution 10`
zeroes the buckets but keeps the total; a subsequent `Incr(-3)` drops the
total to 2, so the very next `Rate()` returns 2 < 5 — the claim that every
subsequent `Rate()` returns at least the pre-reconfiguration total fails
for negative deltas (and, similarly, for 32-bit wraparound). -/
theorem rateBelowPreResolutionTotal :
    (((((NewRateCounter 1000 0).Incr 0 5).WithResolution 10).map fun r2 =>
      ((r2.Incr 0 (-3)).Rate 0).1) = some 2) ∧
    ((((NewRateCounter 1000 0).Incr 0 5).counter.Value = 5) ∧ (2 : Int) < 5) := by decide

/-- C10 (amended): `WithResolution` modifies only the bucket ring and the
current index — counter, `resetTime` and `interval` are unchanged — so
afterwards the total no longer equals the (zero) sum of the fresh buckets
whenever it was nonzero.  Provided the subsequent increments are
non-negative and the total stays below 2^32, every subsequent `Rate()`,
at any query time (even after more than a full window), returns at least
the pre-reconfiguration total: rotations subtract only bucket values
recorded after the reconfiguration. -/
theorem withResolutionFrameAndResidue (r r' : RateCounter) (n : Int)
    (h : r.WithResolution n = some r') :
    (r'.counter = r.counter ∧ r'.resetTime = r.resetTime ∧ r'.interval = r.interval) ∧
    partialsSum r'.partials = 0 ∧
    ∀ (trace : List (Nat × Op)) (now : Nat),
      (∀ d ∈ traceDeltas trace, 0 ≤ d) →
      ((r.counter.word : Int) + (traceDeltas trace).sum < (wordMod : Int)) →
      r.counter.Value ≤ ((run r' trace).Rate now).1 := by
  unfold RateCounter.WithResolution at h
  split at h
  · simp at h
  · rename_i hge
    rw [Option.some_inj] at h
    subst h
    have hn : 0 < n.toNat := by omega
    refine ⟨⟨rfl, rfl, rfl⟩, ?_, ?_⟩
    · dsimp only
      rw [partialsSum_eq_wsum, wsum_replicate_zero]
      simp
    · intro trace now hpos hbound
      have hsum0 : 0 ≤ (traceDeltas trace).sum := List.sum_nonneg hpos
      have hwlt : r.counter.word < wordMod := by
        simp only [wordMod] at *
        omega
      obtain ⟨rA, rB, rC, rD⟩ := run_exact r.counter.word trace
        { r with partials := List.replicate n.toNat ⟨0⟩, current := 0 }
        (by dsimp only; simpa using hn) (by dsimp only; simpa using hn)
        (by dsimp only; rw [wsum_replicate_zero]; omega) (by dsimp only; exact hwlt)
        hpos (by dsimp only; exact hbound)
      obtain ⟨uA, _, _, _, _, _⟩ := updatePartials_exact _ now r.counter.word rB rC rA rD
      show (r.counter.word : Int) ≤
        ((updatePartials (run _ trace) now).counter.word : Int)
      omega

/-- Witness for C10 (amended): total 2 before `WithResolution 4`; after an
`Incr(3)` at t=100 a `Rate()` at t=1500 still returns at least 2. -/
theorem withResolutionFrameApplied :
    ((NewRateCounter 1000 0).Incr 0 2).counter.Value ≤
      ((run { (NewRateCounter 1000 0).Incr 0 2 with
          partials := List.replicate 4 ⟨0⟩, current := 0 } [(100, Op.incr 3)]).Rate 1500).1 :=
  ((withResolutionFrameAndResidue ((NewRateCounter 1000 0).Incr 0 2) _ 4 (by decide)).2.2)
    [(100, Op.incr 3)] 1500 (by decide) (by decide)

theorem counterOne_word_lt : (⟨1⟩ : Counter).word < wordMod := by decide

theorem zeroIncrOne : (⟨0⟩ : Counter).Incr 1 = ⟨1⟩ := by decide

theorem counterIncr_zero (w : Counter) (hw : w.word < wordMod) : w.Incr 0 = w := by
  cases w with
  | mk a =>
    simp only [Counter.Incr, Counter.mk.injEq, wordMod] at *
    omega

theorem getD_all_zero (l : List Counter) :
    (∀ p ∈ l, p = (⟨0⟩ : Counter)) → ∀ i : Nat, l.getD i ⟨0⟩ = ⟨0⟩ := by
  induction l with
  | nil => intro _ i; cases i <;> rfl
  | cons a tl ih =>
    intro h i
    cases i with
    | zero => simpa using h a (by simp)
    | succ j =>
      rw [List.getD_cons_succ]
      exact ih (fun p hp => h p (by simp [hp])) j

theorem set_zero_eq_self (l : List Counter) :
    ∀ i : Nat, l.getD i ⟨0⟩ = ⟨0⟩ → l.set i ⟨0⟩ = l := by
  induction l with
  | nil => intro i _; rfl
  | cons a tl ih =>
    intro i h
    cases i with
    | zero =>
      simp only [List.getD_cons_zero] at h
      rw [List.set_cons_zero, h]
    | succ j =>
      simp only [List.getD_cons_succ] at h
      rw [List.set_cons_succ, ih j h]

theorem evict_frozen (R cur : Nat) (w : Counter) (ps : List Counter)
    (hz : ps.getD ((cur + 1) % R) ⟨0⟩ = ⟨0⟩) (hw : w.word < wordMod) :
    evictStep R (cur, w, ps) = ((cur + 1) % R, w, ps) := by
  rw [evictStep_def, hz, set_zero_eq_self _ _ hz]
  have hv : (-1 * (⟨0⟩ : Counter).Value) = 0 := by
    simp [Counter.Value, zero_counter_word]
  rw [hv, counterIncr_zero w hw]

theorem iter_skip (R : Nat) (hR : 0 < R) (w : Counter) (hw : w.word < wordMod)
    (ps : List Counter) (k : Nat) :
    ∀ cur : Nat, cur < R →
      (∀ j, 1 ≤ j → j ≤ k → ps.getD ((cur + j) % R) ⟨0⟩ = ⟨0⟩) →
      (evictStep R)^[k] (cur, w, ps) = ((cur + k) % R, w, ps) := by
  induction k with
  | zero =>
    intro cur hcur _
    simp [Nat.mod_eq_of_lt hcur]
  | succ k ih =>
    intro cur hcur hz
    rw [Function.iterate_succ_apply,
      evict_frozen R cur w ps (by simpa using hz 1 (by omega) (by omega)) hw]
    rw [ih ((cur + 1) % R) (Nat.mod_lt _ hR) ?_]
    · rw [Nat.mod_add_mod]
      congr 2
      omega
    · intro j hj1 hjk
      have h := hz (j + 1) (by omega) (by omega)
      rw [Nat.mod_add_mod]
      have : cur + 1 + j = cur + (j + 1) := by omega
      rw [this]
      exact h

theorem add_mod_ne_self (R c x : Nat) ( _hc : c < R) (hx1 : 1 ≤ x) (hxR : x < R) :
    (c + x) % R ≠ c := by
  intro h
  have hd := Nat.div_add_mod (c + x) R
  rw [h] at hd
  rcases Nat.eq_zero_or_pos ((c + x) / R) with h0 | h1
  · rw [h0, Nat.mul_zero] at hd
    omega
  · have hge : R ≤ R * ((c + x) / R) := Nat.le_mul_of_pos_right R h1
    omega

theorem chain_le_last (u : Nat) (xs : List Nat) :
    ∀ (x : Nat), List.Chain (· ≤ ·) x (xs ++ [u]) → x ≤ u := by
  induction xs with
  | nil =>
    intro x h
    exact (List.chain_cons.mp h).1
  | cons y ys ih =>
    intro x h
    obtain ⟨hxy, h'⟩ := List.chain_cons.mp h
    exact Nat.le_trans hxy (ih y h')

theorem updatePartials_zero_buckets (r : RateCounter) (now : Nat)
    (hres : 0 < r.partials.length) (hcur : r.current < r.partials.length)
    (hw : r.counter.word < wordMod) (hz : ∀ p ∈ r.partials, p = ⟨0⟩)
    (hrt : r.resetTime ≤ now) :
    (updatePartials r now).counter = r.counter ∧
    (updatePartials r now).partials = r.partials ∧
    (updatePartials r now).current < r.partials.length ∧
    (updatePartials r now).interval = r.interval ∧
    (updatePartials r now).resetTime ≤ now ∧
    (now - (updatePartials r now).resetTime) * r.partials.length ≤ r.interval := by
  by_cases hrot : r.interval < (now - r.resetTime) * r.partials.length
  · rw [updatePartials_rot r now hrot]
    have hiter := iter_skip r.partials.length hres r.counter hw r.partials
      (rotCount r now) r.current hcur
      (fun j _ _ => getD_all_zero r.partials hz _)
    rw [hiter]
    refine ⟨rfl, rfl, Nat.mod_lt _ hres, rfl, Nat.le_refl _, ?_⟩
    simp
  · rw [updatePartials_not_rot r now (by omega)]
    exact ⟨rfl, rfl, hcur, rfl, hrt, by omega⟩

theorem incr_single_event (s : RateCounter) (t : Nat)
    (hres : 0 < s.partials.length) (hcur : s.current < s.partials.length)
    (hc0 : s.counter = ⟨0⟩) (hz : ∀ p ∈ s.partials, p = ⟨0⟩) (hrt : s.resetTime ≤ t) :
    (s.Incr t 1).counter = ⟨1⟩ ∧
    (s.Incr t 1).partials.length = s.partials.length ∧
    (s.Incr t 1).current < s.partials.length ∧
    (s.Incr t 1).partials.getD (s.Incr t 1).current ⟨0⟩ = ⟨1⟩ ∧
    (∀ i, i ≠ (s.Incr t 1).current → (s.Incr t 1).partials.getD i ⟨0⟩ = ⟨0⟩) ∧
    (s.Incr t 1).interval = s.interval ∧
    (s.Incr t 1).resetTime ≤ t ∧
    (t - (s.Incr t 1).resetTime) * s.partials.length ≤ s.interval ∧
    wsum (s.Incr t 1).partials = 1 := by
  have hc1 : s.counter.Incr 1 = ⟨1⟩ := by rw [hc0, zeroIncrOne]
  obtain ⟨zA, zB, zC, zD, zE, zF⟩ := updatePartials_zero_buckets
    { s with counter := s.counter.Incr 1 } t hres hcur
    (by dsimp only; rw [hc1]; exact counterOne_word_lt) hz hrt
  simp only [RateCounter.Incr]
  set r2 := updatePartials { s with counter := s.counter.Incr 1 } t with hr2
  dsimp only at zA zB zC zD zE zF
  rw [hc1] at zA
  have hg0 : r2.partials.getD r2.current ⟨0⟩ = ⟨0⟩ := by
    rw [zB]
    exact getD_all_zero s.partials hz _
  have hcur2 : r2.current < r2.partials.length := by rw [zB]; exact zC
  have hwset := wsum_set r2.partials r2.current
    ((r2.partials.getD r2.current ⟨0⟩).Incr 1) hcur2
  refine ⟨zA, ?_, zC, ?_, ?_, zD, zE, zF, ?_⟩
  · show (r2.partials.set r2.current
      ((r2.partials.getD r2.current ⟨0⟩).Incr 1)).length = s.partials.length
    rw [List.length_set, zB]
  · show (r2.partials.set r2.current
        ((r2.partials.getD r2.current ⟨0⟩).Incr 1)).getD r2.current ⟨0⟩ = ⟨1⟩
    rw [getD_set, if_pos ⟨rfl, hcur2⟩, hg0, zeroIncrOne]
  · intro i hne
    show (r2.partials.set r2.current
        ((r2.partials.getD r2.current ⟨0⟩).Incr 1)).getD i ⟨0⟩ = ⟨0⟩
    have hne2 : i ≠ r2.current := hne
    rw [getD_set, if_neg (fun hcontra => hne2 hcontra.1.symm), zB]
    exact getD_all_zero s.partials hz i
  · show wsum (r2.partials.set r2.current
      ((r2.partials.getD r2.current ⟨0⟩).Incr 1)) = 1
    rw [hg0, zeroIncrOne] at hwset ⊢
    have hz2 : wsum r2.partials = 0 := by rw [zB]; exact wsum_eq_zero _ hz
    rw [zero_counter_word] at hwset
    have hone : ((⟨1⟩ : Counter).word : Int) = 1 := by norm_num [Counter.word]
    omega

theorem alive_step (W c t : Nat) (ps1 : List Counter)
    (hc : c < ps1.length)
    (hoth : ∀ i, i ≠ c → ps1.getD i ⟨0⟩ = ⟨0⟩)
    (r : RateCounter) (m u : Nat) (hA : Alive W c t m ps1 r)
    (hru : r.resetTime ≤ u)
    (hu : u * ps1.length ≤ t * ps1.length + (ps1.length - 1) * W) :
    ∃ m', Alive W c t m' ps1 (updatePartials r u) ∧ (updatePartials r u).resetTime ≤ u := by
  obtain ⟨hcounter, hps, hint, hcurr, hm, htime⟩ := hA
  have hR : 0 < ps1.length := by omega
  by_cases hrot : r.interval < (u - r.resetTime) * r.partials.length
  · have hrot' : W < (u - r.resetTime) * ps1.length := by
      rw [← hps, ← hint]
      exact hrot
    have hkdef : rotCount r u = loopSteps ps1.length ((u - r.resetTime) * ps1.length) W := by
      rw [rotCount, hps, hint]
    have hkR : rotCount r u ≤ ps1.length := by
      rw [hkdef]
      exact loopSteps_le _ _ _
    have e4 : (u - r.resetTime) * ps1.length
        = u * ps1.length - r.resetTime * ps1.length := Nat.sub_mul u r.resetTime ps1.length
    have e5 : r.resetTime * ps1.length ≤ u * ps1.length := Nat.mul_le_mul_right _ hru
    have e3 : (ps1.length - 1) * W = ps1.length * W - W := by
      rw [Nat.sub_mul, Nat.one_mul]
    have emW : m * W ≤ ps1.length * W := Nat.mul_le_mul_right _ (by omega)
    have hklt : m + rotCount r u < ps1.length := by
      by_contra hge
      push_neg at hge
      have hj1 : 1 ≤ ps1.length - m := by omega
      have hjle : ps1.length - m ≤ loopSteps ps1.length ((u - r.resetTime) * ps1.length) W := by
        rw [← hkdef]
        omega
      have hgt := loopSteps_gt ps1.length (ps1.length - m)
        ((u - r.resetTime) * ps1.length) W hj1 hjle
      have e1 : (ps1.length - m) * W = ps1.length * W - m * W := Nat.sub_mul _ _ _
      omega
    have hk1 : 1 ≤ rotCount r u := by
      rw [hkdef]
      apply loopSteps_ge _ _ _ _ hR
      rw [Nat.one_mul]
      exact hrot'
    have hkgt := loopSteps_gt ps1.length (rotCount r u)
      ((u - r.resetTime) * ps1.length) W hk1 (by rw [← hkdef])
    rw [updatePartials_rot r u hrot]
    have hadd : (c + m) + rotCount r u = c + (m + rotCount r u) := by omega
    have hiter : (evictStep r.partials.length)^[rotCount r u]
        (r.current, r.counter, r.partials)
        = ((c + (m + rotCount r u)) % ps1.length, ⟨1⟩, ps1) := by
      rw [hps, hcounter, hcurr]
      rw [iter_skip ps1.length hR ⟨1⟩ counterOne_word_lt ps1 (rotCount r u)
        ((c + m) % ps1.length) (Nat.mod_lt _ hR) ?_]
      · rw [Nat.mod_add_mod, hadd]
      · intro j hj1 hjk
        rw [Nat.mod_add_mod]
        have hidx : (c + m) + j = c + (m + j) := by omega
        rw [hidx]
        exact hoth _ (add_mod_ne_self ps1.length c (m + j) hc (by omega) (by omega))
    rw [hiter]
    refine ⟨m + rotCount r u, ⟨rfl, rfl, hint, rfl, hklt, ?_⟩, Nat.le_refl _⟩
    show t * ps1.length + (m + rotCount r u) * W ≤ u * ps1.length + W
    have eadd : (m + rotCount r u) * W = m * W + rotCount r u * W := Nat.add_mul _ _ _
    omega
  · rw [updatePartials_not_rot r u (by omega)]
    exact ⟨m, ⟨hcounter, hps, hint, hcurr, hm, htime⟩, hru⟩

theorem alive_fold (W c t : Nat) (ps1 : List Counter)
    (hc : c < ps1.length)
    (hoth : ∀ i, i ≠ c → ps1.getD i ⟨0⟩ = ⟨0⟩)
    (u : Nat)
    (hu : u * ps1.length ≤ t * ps1.length + (ps1.length - 1) * W)
    (us : List Nat) :
    ∀ (r : RateCounter) (m v : Nat),
      Alive W c t m ps1 r → r.resetTime ≤ v →
      List.Chain (· ≤ ·) v (us ++ [u]) →
      ∃ m', Alive W c t m' ps1 (run r (us.map fun x => (x, Op.rate))) ∧
        (run r (us.map fun x => (x, Op.rate))).resetTime ≤ u := by
  induction us with
  | nil =>
    intro r m v hA hrv hchain
    have hvu : v ≤ u := (List.chain_cons.mp hchain).1
    exact ⟨m, hA, Nat.le_trans hrv hvu⟩
  | cons x xs ih =>
    intro r m v hA hrv hchain
    obtain ⟨hvx, hchain'⟩ := List.chain_cons.mp hchain
    have hxu : x ≤ u := chain_le_last u xs x hchain'
    obtain ⟨m', hA', hrx⟩ := alive_step W c t ps1 hc hoth r m x hA
      (Nat.le_trans hrv hvx)
      (Nat.le_trans (Nat.mul_le_mul_right _ hxu) hu)
    have hrun : run r ((x :: xs).map fun y => (y, Op.rate))
        = run (updatePartials r x) (xs.map fun y => (y, Op.rate)) := rfl
    rw [hrun]
    exact ih (updatePartials r x) m' x hA' hrx hchain'

/-- C1 counterexample (evaluated on the faithful binary32 semantics; every
time value here is an integer below 2^24, where float32 arithmetic is
exact): window 1000ms, resolution 10, a single `Incr(1)` at t=0.
Intervening `Rate()` calls every 150ms each rotate only one bucket while
consuming 150ms of wall time (the 50ms remainder is discarded when
`resetTime` is set to `now`), so after nine of them only buckets 1..9 have
been evicted.  A `Rate()` at t=1400 — more than `W = 1000` ms after the
event — still returns 1, refuting the claimed upper bound that the event
is no longer reflected at most `W` ms after `t`. -/
theorem eventVisibleBeyondWindow :
    ((((NewRateCounter 1000 0).WithResolution 10).map fun rc0 =>
      ((runF32 (rc0.IncrF32 0 1) ([150, 300, 450, 600, 750, 900, 1050, 1200, 1350].map
        fun x => (x, Op.rate))).RateF32 1400).1) = some 1) ∧
    0 + 1000 < 1400 ∧ (1 : Int) ≠ 0 := by decide

/-- Exact-arithmetic layer for C1: under the scaled-integer idealization
of the timing comparison, a single event `Incr(1)` at time `t` on a
zeroed state is still reflected at every query time `u` with
`u * R ≤ t * R + (R - 1) * W`, regardless of intervening `Rate` calls at
nondecreasing times, and a `Rate()` strictly later than `t + W` with no
intervening operation returns 0.  The binary32 claim theorem
`singleEventVisibilityBoundsF32` transfers both bounds through
`updatePartials_agree` on the float32-exact regime. -/
theorem singleEventVisibilityBounds (s : RateCounter) (t : Nat)
    (hres : 0 < s.partials.length) ( _hW : 0 < s.interval)
    (hcur : s.current < s.partials.length)
    (hc0 : s.counter = ⟨0⟩) (hz : ∀ p ∈ s.partials, p = ⟨0⟩)
    (hrt : s.resetTime ≤ t) :
    (∀ (us : List Nat) (u : Nat),
      List.Chain (· ≤ ·) t (us ++ [u]) →
      u * s.partials.length ≤ t * s.partials.length + (s.partials.length - 1) * s.interval →
      ((run (s.Incr t 1) (us.map fun x => (x, Op.rate))).Rate u).1 = 1) ∧
    (∀ u' : Nat, t + s.interval < u' → ((s.Incr t 1).Rate u').1 = 0) := by
  obtain ⟨eA, eB, eC, eD, eE, eF, eG, eH, eI⟩ := incr_single_event s t hres hcur hc0 hz hrt
  set s1 := s.Incr t 1 with hs1
  set c := s1.current with hcdef
  set ps1 := s1.partials with hpsdef
  have hlen : ps1.length = s.partials.length := eB
  have hc : c < ps1.length := by omega
  constructor
  · intro us u hchain hu
    have hA0 : Alive s.interval c t 0 ps1 s1 := by
      refine ⟨eA, rfl, eF, ?_, by omega, ?_⟩
      · rw [Nat.add_zero, Nat.mod_eq_of_lt hc]
      · have e1 : (t - s1.resetTime) * s.partials.length
            = t * s.partials.length - s1.resetTime * s.partials.length := Nat.sub_mul _ _ _
        have e2 : s1.resetTime * s.partials.length ≤ t * s.partials.length :=
          Nat.mul_le_mul_right _ eG
        rw [hlen]
        omega
    have hu' : u * ps1.length ≤ t * ps1.length + (ps1.length - 1) * s.interval := by
      rw [hlen]
      exact hu
    obtain ⟨m', hA', hr'⟩ := alive_fold s.interval c t ps1 hc eE u hu' us s1 0 t hA0 eG hchain
    obtain ⟨m2, hA2, _⟩ := alive_step s.interval c t ps1 hc eE _ m' u hA' hr' hu'
    show (updatePartials (run s1 (us.map fun x => (x, Op.rate))) u).counter.Value = 1
    rw [hA2.1]
    rfl
  · intro u' hu'
    apply rate_zero_of_idle
    · refine ⟨?_, ?_, ?_, ?_⟩
      · rw [← hpsdef]
        omega
      · rw [← hcdef, ← hpsdef]
        exact hc
      · rw [eA]
        exact counterOne_word_lt
      · rw [eA, ← hpsdef, eI]
    · rw [eF]
      omega

/-- Exact-arithmetic layer example: a fresh counter (window 1000ms,
resolution 20), event at t=0, one intervening `Rate()` at t=300; a
`Rate()` at t=900 (within `W - W/R = 950` ms) returns 1, and with no
intervening call a `Rate()` at t=1001 (beyond `W`) returns 0. -/
theorem singleEventVisibilityBoundsApplied :
    ((run ((NewRateCounter 1000 0).Incr 0 1) ([300].map fun x => (x, Op.rate))).Rate 900).1
        = 1 ∧
    (((NewRateCounter 1000 0).Incr 0 1).Rate 1001).1 = 0 := by
  have h := singleEventVisibilityBounds (NewRateCounter 1000 0) 0 (by decide) (by decide)
    (by decide) (by decide) (by decide) (by decide)
  exact ⟨h.1 [300] 900
    (List.Chain.cons (by decide) (List.Chain.cons (by decide) List.Chain.nil))
    (by decide), h.2 1001 (by decide)⟩

theorem chain_mem_le_last (u : Nat) (xs : List Nat) :
    ∀ (t x : Nat), List.Chain (· ≤ ·) t (xs ++ [u]) → x ∈ xs → x ≤ u := by
  induction xs with
  | nil => intro t x _ hx; cases hx
  | cons y ys ih =>
    intro t x hchain hx
    obtain ⟨hty, hrest⟩ := List.chain_cons.mp hchain
    rcases List.mem_cons.mp hx with rfl | hmem
    · exact chain_le_last u ys x hrest
    · exact ih y x hrest hmem

/-- C1 (amended): for a RateCounter holding a single event — `Incr(1)` at
time `t` on a state with zero total and all-zero buckets — under the
faithful binary32 timing, within the float32-exact regime (window below
`2^24` ms, resolution below `2^24` and dividing the window, all query
times below `2^24`): the event is still reflected (`Rate()` returns 1) at
every query time `u` with `u ≤ t + (W - W/R)` (stated scaled by `R`:
`u * R ≤ t * R + (R - 1) * W`), regardless of intervening `Rate` calls at
nondecreasing times; and a `Rate()` call strictly later than `t + W` with
no intervening operation returns 0.  The original claim's unconditional
upper bound (`no longer reflected at most W ms after t`) is false:
intervening rotations triggered part-way through a sub-interval discard
the remainder of the elapsed time and can extend visibility beyond `W`
(see the counterexample, whose times all lie in the float32-exact
regime). -/
theorem singleEventVisibilityBoundsF32 (s : RateCounter) (t : Nat)
    (hres : 0 < s.partials.length) ( _hW : 0 < s.interval)
    (hcur : s.current < s.partials.length)
    (hc0 : s.counter = ⟨0⟩) (hz : ∀ p ∈ s.partials, p = ⟨0⟩)
    (hrt : s.resetTime ≤ t)
    (hWlt : s.interval < 2 ^ 24) (hRlt : s.partials.length < 2 ^ 24)
    (hdvd : s.partials.length ∣ s.interval) :
    (∀ (us : List Nat) (u : Nat), u < 2 ^ 24 →
      List.Chain (· ≤ ·) t (us ++ [u]) →
      u * s.partials.length ≤ t * s.partials.length + (s.partials.length - 1) * s.interval →
      ((runF32 (s.IncrF32 t 1) (us.map fun x => (x, Op.rate))).RateF32 u).1 = 1) ∧
    (∀ u' : Nat, u' < 2 ^ 24 → t + s.interval < u' → ((s.IncrF32 t 1).RateF32 u').1 = 0) := by
  have hex := singleEventVisibilityBounds s t hres _hW hcur hc0 hz hrt
  obtain ⟨hL1, hI1⟩ : (s.Incr t 1).partials.length = s.partials.length ∧
      (s.Incr t 1).interval = s.interval := step_frame s (t, Op.incr 1)
  constructor
  · intro us u hu24 hchain hu
    have htu : t ≤ u := chain_le_last u us t hchain
    rw [incrF32_agree s t 1 hWlt hRlt hdvd (by omega)]
    rw [run_agree (us.map fun x => (x, Op.rate)) (s.Incr t 1)
      (by rw [hI1]; exact hWlt) (by rw [hL1]; exact hRlt)
      (by rw [hL1, hI1]; exact hdvd) ?htimes]
    case htimes =>
      intro p hp
      obtain ⟨x, hx, rfl⟩ := List.mem_map.mp hp
      show x < 2 ^ 24
      have := chain_mem_le_last u us t x hchain hx
      omega
    obtain ⟨hL2, hI2⟩ := run_frame (us.map fun x => (x, Op.rate)) (s.Incr t 1)
    show (updatePartialsF32 (run (s.Incr t 1) (us.map fun x => (x, Op.rate)))
      u).counter.Value = 1
    rw [updatePartials_agree _ u (by rw [hI2, hI1]; exact hWlt)
      (by rw [hL2, hL1]; exact hRlt) (by rw [hL2, hI2, hL1, hI1]; exact hdvd) (by omega)]
    exact hex.1 us u hchain hu
  · intro u2 hu24 hu2
    rw [incrF32_agree s t 1 hWlt hRlt hdvd (by omega)]
    show (updatePartialsF32 (s.Incr t 1) u2).counter.Value = 0
    rw [updatePartials_agree _ u2 (by rw [hI1]; exact hWlt) (by rw [hL1]; exact hRlt)
      (by rw [hL1, hI1]; exact hdvd) (by omega)]
    exact hex.2 u2 hu2

/-- Witness for C1 (amended): a fresh counter (window 1000ms, resolution
20), event at t=0, one intervening `Rate()` at t=300; under the binary32
semantics a `Rate()` at t=900 (within `W - W/R = 950` ms) returns 1, and
with no intervening call a `Rate()` at t=1001 (beyond `W`) returns 0. -/
theorem singleEventVisibilityBoundsF32Applied :
    ((runF32 ((NewRateCounter 1000 0).IncrF32 0 1)
        ([300].map fun x => (x, Op.rate))).RateF32 900).1 = 1 ∧
    (((NewRateCounter 1000 0).IncrF32 0 1).RateF32 1001).1 = 0 := by
  have h := singleEventVisibilityBoundsF32 (NewRateCounter 1000 0) 0 (by decide)
    (by decide) (by decide) (by decide) (by decide) (by decide) (by decide) (by decide)
    (by decide)
  exact ⟨h.1 [300] 900 (by decide)
    (List.Chain.cons (by decide) (List.Chain.cons (by decide) List.Chain.nil))
    (by decide), h.2 1001 (by decide) (by decide)⟩
